import Mathlib

/-!
# MemoryPool: a fixed-size block allocator

Shallow embedding of `MemoryPool.h` / `MemoryPool.cpp`.

* `size_t` is a natural number below `2 ^ 64`; every `size_t` operation of the
  source is written with its explicit reduction modulo `2 ^ 64`.
* An address (`char*`, `void*`) is a natural number below `2 ^ 64`, the null
  pointer is `0`, and pointer arithmetic wraps modulo `2 ^ 64`.
* A `MemoryBlock*` always points into `m_blocks` (the vector is never resized
  after construction), so it is embedded as `Option Nat`: `none` is `nullptr`
  and `some i` is `&m_blocks[i]`.
* `throw` does not roll anything back, so `allocate` and `deallocate` return
  the outcome together with the state the object is left in.
* The mutex only serialises calls; the embedding is the sequential semantics
  of one call at a time.
-/

/-! ## Machine arithmetic -/

/-- Number of values of `size_t` (64-bit target). -/
def SIZE_MOD : Nat := 2 ^ 64

/-- Constant `MEM_ALIGNMENT` (MemoryPool.cpp line 6). -/
def MEM_ALIGNMENT : Nat := 16

/-- Addition `a + b` on `size_t`. -/
def sizeAdd (a b : Nat) : Nat := (a + b) % SIZE_MOD

/-- Subtraction `a - b` on `size_t` (wraps below zero). -/
def sizeSub (a b : Nat) : Nat := (a + (SIZE_MOD - b % SIZE_MOD)) % SIZE_MOD

/-- Multiplication `a * b` on `size_t`. -/
def sizeMul (a b : Nat) : Nat := (a * b) % SIZE_MOD

/-- Bitwise complement `~a` on `size_t`. -/
def sizeNot (a : Nat) : Nat := SIZE_MOD - 1 - a % SIZE_MOD

/-- Bitwise conjunction `a & b` on `size_t`. -/
def sizeAnd (a b : Nat) : Nat := (a % SIZE_MOD) &&& (b % SIZE_MOD)

/-- Pointer displacement `p + off` in a flat 64-bit address space. -/
def ptrAdd (p off : Nat) : Nat := (p + off) % SIZE_MOD

/-- The initialiser of `m_blockSize` (MemoryPool.cpp line 13):
`(blockSize + MEM_ALIGNMENT - 1) & ~(MEM_ALIGNMENT - 1)`. -/
def alignUp (blockSize : Nat) : Nat :=
  sizeAnd (sizeSub (sizeAdd blockSize MEM_ALIGNMENT) 1) (sizeNot (sizeSub MEM_ALIGNMENT 1))

/-! ## Exceptions -/

/-- The `what()` strings of the `std::invalid_argument` exceptions thrown by the source. -/
inductive Message where
  /-- "Block size or count cannot be zero" (line 17): `InvalidConfiguration`. -/
  | zeroSizeOrCount
  /-- "Invalid pointer: out of pool range" (line 71): `InvalidPointer`. -/
  | outOfPoolRange
  /-- "Double free detected" (line 75): `DoubleRelease`. -/
  | doubleFree
  /-- "Pointer not from this pool" (line 84): `InvalidPointer`. -/
  | notFromThisPool
deriving DecidableEq

/-- The exceptions that can leave the member functions. -/
inductive Exception where
  | invalid_argument (what : Message)
  /-- Thrown by `allocate` on an empty free list (`PoolExhausted`) and by a failed
  `operator new` in the constructor (`OutOfMemory`). -/
  | bad_alloc
  /-- Thrown by `std::vector<MemoryBlock>(n)` when `n` exceeds `max_size()`. -/
  | length_error
deriving DecidableEq

deriving instance DecidableEq for Except

/-- The two `InvalidPointer` messages of the specification. -/
def Exception.isInvalidPointer : Exception → Bool
  | .invalid_argument .outOfPoolRange => true
  | .invalid_argument .notFromThisPool => true
  | _ => false

/-! ## Data model -/

/-- Record `MemoryPool::MemoryBlock` (MemoryPool.h lines 39-43). -/
structure MemoryBlock where
  data : Nat
  isUsed : Bool
  next : Option Nat
deriving DecidableEq

/-- A value-initialised `MemoryBlock`, as produced by `m_blocks(blockCount)`. -/
instance : Inhabited MemoryBlock := ⟨⟨0, false, none⟩⟩

/-- Data members of `MemoryPool` (MemoryPool.h lines 45-50; the mutex carries no data). -/
structure MemoryPool where
  m_blockSize : Nat
  m_blockCount : Nat
  m_head : Option Nat
  m_pools : List Nat
  m_blocks : List MemoryBlock
deriving DecidableEq

/-- The free store as seen by the constructor.  `newChars n` is the outcome of
`new char[n]`: the address of the array, or `none` for `std::bad_alloc`.
`newBlocks n` tells whether the storage of a vector of `n > 0` descriptors can be
obtained, `newPools n` whether the storage of a vector of `n > 0` pool addresses
can be obtained, and `max_size` is `std::vector<MemoryBlock>::max_size()`.  An
array returned by `new char[n]` is not at the null address and its
one-past-the-end pointer is representable. -/
structure Heap where
  max_size : Nat
  newBlocks : Nat → Bool
  newPools : Nat → Bool
  newChars : Nat → Option Nat
  newChars_valid : ∀ n pool, newChars n = some pool → 0 < pool ∧ pool + n < SIZE_MOD

/-- A request made to the free store. -/
inductive Request where
  /-- Storage for a vector of `n` slot descriptors (`m_blocks`). -/
  | blocks (n : Nat)
  /-- Storage for a vector of `n` pool addresses (`m_pools`). -/
  | pools (n : Nat)
  /-- The expression `new char[n]`. -/
  | chars (n : Nat)
deriving DecidableEq

/-- What a constructor call did: the requests it made to the free store, in
order, and either the constructed object or the exception that left it. -/
structure Construction where
  requests : List Request
  result : Except Exception MemoryPool

/-! ## Constructor -/

/-- One iteration of the loop of lines 26-32, on the pair `(m_head, m_blocks)`. -/
def initBlock (pool m_blockSize : Nat) (st : Option Nat × List MemoryBlock) (i : Nat) :
    Option Nat × List MemoryBlock :=
  (some i,
   st.2.set i { data := ptrAdd pool (sizeMul i m_blockSize), isUsed := false, next := st.1 })

/-- The loop `for (size_t i = 0; i < blockCount; ++i)` of lines 26-32. -/
def initBlocks (pool m_blockSize blockCount : Nat) (m_blocks : List MemoryBlock) :
    Option Nat × List MemoryBlock :=
  (List.range blockCount).foldl (initBlock pool m_blockSize) (none, m_blocks)

/-- Constructor `MemoryPool::MemoryPool(size_t blockSize, size_t blockCount)`
(lines 12-33).  The member initialisers run first, in declaration order, so the
vector `m_blocks(blockCount)` is built before the body tests its arguments; in
the body, `m_pools.push_back(pool)` grows the empty vector `m_pools` to one
element. -/
def MemoryPool.ctor (h : Heap) (blockSize blockCount : Nat) : Construction :=
  let m_blockSize := alignUp blockSize
  if h.max_size < blockCount then
    { requests := [], result := .error .length_error }
  else
    let vec : List Request := if blockCount = 0 then [] else [.blocks blockCount]
    if blockCount ≠ 0 ∧ h.newBlocks blockCount = false then
      { requests := vec, result := .error .bad_alloc }
    else
      let m_blocks : List MemoryBlock := List.replicate blockCount default
      if m_blockSize = 0 ∨ blockCount = 0 then
        { requests := vec, result := .error (.invalid_argument .zeroSizeOrCount) }
      else
        let len := sizeMul m_blockSize blockCount
        match h.newChars len with
        | none => { requests := vec ++ [.chars len], result := .error .bad_alloc }
        | some pool =>
          if h.newPools 1 = false then
            { requests := vec ++ [.chars len, .pools 1], result := .error .bad_alloc }
          else
            let st := initBlocks pool m_blockSize blockCount m_blocks
            { requests := vec ++ [.chars len, .pools 1],
              result := .ok { m_blockSize := m_blockSize, m_blockCount := blockCount,
                              m_head := st.1, m_pools := [pool], m_blocks := st.2 } }

/-! ## Member functions -/

/-- Member `MemoryPool::allocate` (lines 44-56): the outcome and the state left behind. -/
def MemoryPool.allocate (p : MemoryPool) : Except Exception Nat × MemoryPool :=
  match p.m_head with
  | none => (.error .bad_alloc, p)
  | some block =>
    let b := p.m_blocks.getD block default
    (.ok b.data,
     { p with m_head := b.next, m_blocks := p.m_blocks.set block { b with isUsed := true } })

/-- The body of `for (auto pool : m_pools)` in `deallocate` (lines 66-84), over
the pools that remain to be visited. -/
def MemoryPool.deallocateIn (p : MemoryPool) (ptr : Nat) :
    List Nat → Except Exception Unit × MemoryPool
  | [] => (.error (.invalid_argument .notFromThisPool), p)
  | pool :: rest =>
    if pool ≤ ptr ∧ ptr < ptrAdd pool (sizeMul p.m_blockSize p.m_blockCount) then
      let blockIndex := (ptr - pool) / p.m_blockSize
      if p.m_blockCount ≤ blockIndex then
        (.error (.invalid_argument .outOfPoolRange), p)
      else
        let b := p.m_blocks.getD blockIndex default
        if b.isUsed = false then
          (.error (.invalid_argument .doubleFree), p)
        else
          (.ok (),
           { p with m_head := some blockIndex,
                    m_blocks := p.m_blocks.set blockIndex
                      { b with isUsed := false, next := p.m_head } })
    else
      MemoryPool.deallocateIn p ptr rest

/-- Member `MemoryPool::deallocate` (lines 59-85). -/
def MemoryPool.deallocate (p : MemoryPool) (ptr : Nat) : Except Exception Unit × MemoryPool :=
  if ptr = 0 then (.ok (), p) else p.deallocateIn ptr p.m_pools

/-- Member `MemoryPool::getAvailableBlocks` (lines 88-96). -/
def MemoryPool.getAvailableBlocks (p : MemoryPool) : Nat :=
  p.m_blocks.foldl (fun count block => if block.isUsed = false then sizeAdd count 1 else count) 0

/-! ## A concrete free store -/

/-- A free store in which a vector is granted whenever its length is within
`max_size()` (here `PTRDIFF_MAX / sizeof(MemoryBlock)`, with 24-byte descriptors),
and `new char[n]` returns `pool` for every `n` below `2 ^ 32` and throws
`std::bad_alloc` otherwise. -/
def Heap.grantAt (pool : Nat) (hp : 0 < pool) (hlt : pool < 2 ^ 32) : Heap where
  max_size := (2 ^ 63 - 1) / 24
  newBlocks := fun _ => true
  newPools := fun _ => true
  newChars := fun n => if n < 2 ^ 32 then some pool else none
  newChars_valid := by
    intro n q hq
    unfold SIZE_MOD
    beta_reduce at hq
    by_cases hn : n < 2 ^ 32
    · rw [if_pos hn] at hq
      cases hq
      omega
    · rw [if_neg hn] at hq
      cases hq

/-- The free store used in the examples: the backing buffer is placed at `4096`. -/
def Heap.demo : Heap := Heap.grantAt 4096 (by decide) (by decide)

/-! ## Closed forms, invariant and reachable states -/

/-- The slot descriptor number `i` as the constructor loop leaves it (lines 28-30). -/
def freshBlock (pool m_blockSize i : Nat) : MemoryBlock :=
  { data := ptrAdd pool (sizeMul i m_blockSize), isUsed := false,
    next := if i = 0 then none else some (i - 1) }

/-- The object a successful constructor call leaves behind, in closed form. -/
def freshPool (pool m_blockSize blockCount : Nat) : MemoryPool :=
  { m_blockSize := m_blockSize, m_blockCount := blockCount,
    m_head := if blockCount = 0 then none else some (blockCount - 1),
    m_pools := [pool],
    m_blocks := (List.range blockCount).map (freshBlock pool m_blockSize) }

/-- Descriptor `i` of the pool (`m_blocks[i]`). -/
def MemoryPool.block (p : MemoryPool) (i : Nat) : MemoryBlock := p.m_blocks.getD i default

/-- The list `free` is the chain of descriptors met by following `next` from `head`
until `nullptr`. -/
def FreeChain (blocks : List MemoryBlock) : Option Nat → List Nat → Prop
  | head, [] => head = none
  | head, i :: rest => head = some i ∧ FreeChain blocks (blocks.getD i default).next rest

/-- The invariant of a constructed pool whose backing buffer starts at `pool` and
whose free list, walked from `m_head`, is `free`: the sizes are those the
constructor accepted, descriptor `i` holds the address the constructor gave it,
and the free list is a duplicate-free chain of exactly the descriptors with
`isUsed == false`. -/
structure PoolInv (p : MemoryPool) (pool : Nat) (free : List Nat) : Prop where
  size_pos : 0 < p.m_blockSize
  size_lt : p.m_blockSize < SIZE_MOD
  size_dvd : MEM_ALIGNMENT ∣ p.m_blockSize
  count_pos : 0 < p.m_blockCount
  count_lt : p.m_blockCount < SIZE_MOD
  length_eq : p.m_blocks.length = p.m_blockCount
  pools_eq : p.m_pools = [pool]
  pool_pos : 0 < pool
  pool_end : pool + sizeMul p.m_blockSize p.m_blockCount < SIZE_MOD
  data_eq : ∀ i, i < p.m_blockCount → (p.block i).data = ptrAdd pool (sizeMul i p.m_blockSize)
  chain : FreeChain p.m_blocks p.m_head free
  nodup : free.Nodup
  mem_free : ∀ i, i ∈ free ↔ i < p.m_blockCount ∧ (p.block i).isUsed = false

/-- The states of a pool object: the one a successful constructor call returns
for `size_t` arguments, and every state a call of `allocate` or `deallocate`
leaves behind, whether the call returns or throws. -/
inductive Reachable : MemoryPool → Prop where
  | ctor (h : Heap) (blockSize blockCount : Nat) (p : MemoryPool)
      (hsize : blockSize < SIZE_MOD) (hcount : blockCount < SIZE_MOD)
      (hp : (MemoryPool.ctor h blockSize blockCount).result = .ok p) : Reachable p
  | allocate (p : MemoryPool) (hp : Reachable p) : Reachable p.allocate.2
  | deallocate (p : MemoryPool) (ptr : Nat) (hptr : ptr < SIZE_MOD) (hp : Reachable p) :
      Reachable (p.deallocate ptr).2

/-- The outcomes of `n` consecutive calls of `allocate`, and the state they leave. -/
def allocateN : Nat → MemoryPool → List (Except Exception Nat) × MemoryPool
  | 0, p => ([], p)
  | n + 1, p => (p.allocate.1 :: (allocateN n p.allocate.2).1, (allocateN n p.allocate.2).2)

/-! ## Example objects -/

/-- The pool of `MemoryPool(8, 3)` in the free store `Heap.demo`. -/
def demoPool : MemoryPool := freshPool 4096 16 3

/-- The pool of `MemoryPool(2^63 + 16, 2)` in the free store `Heap.demo`: the
product `m_blockSize * blockCount` wraps to `32`. -/
def wrappedPool : MemoryPool := freshPool 4096 9223372036854775824 2

/-- The pool of `MemoryPool(2^63 + 16, 4)` in the free store `Heap.demo`: the
product `m_blockSize * blockCount` wraps to `64`. -/
def wrappedPool4 : MemoryPool := freshPool 4096 9223372036854775824 4

/-- The pool of `MemoryPool(2^63, 4)` in the free store `Heap.demo`: the product
`m_blockSize * blockCount` wraps to `0`. -/
def aliasPool : MemoryPool := freshPool 4096 9223372036854775808 4

/-! ## Alignment arithmetic -/

theorem testBit_mask (i : Nat) :
    (2 ^ 64 - 16 : Nat).testBit i = (decide (4 ≤ i) && decide (i < 64)) := by
  by_cases h : i < 64
  · interval_cases i <;> rfl
  · have h64 : 64 ≤ i := by omega
    have : (2 ^ 64 - 16 : Nat) < 2 ^ i :=
      lt_of_lt_of_le (by norm_num) (Nat.pow_le_pow_right (by norm_num) h64)
    rw [Nat.testBit_lt_two_pow this]
    simp [h]

theorem land_mask (x : Nat) (hx : x < 2 ^ 64) : x &&& (2 ^ 64 - 16) = x / 16 * 16 := by
  apply Nat.eq_of_testBit_eq
  intro i
  rw [Nat.testBit_and, testBit_mask]
  have h16 : (16 : Nat) = 2 ^ 4 := by norm_num
  rw [h16, Nat.mul_comm, Nat.testBit_mul_pow_two, ← Nat.shiftRight_eq_div_pow,
    Nat.testBit_shiftRight]
  by_cases h4 : 4 ≤ i
  · by_cases h64 : i < 64
    · simp [h4, h64, Nat.add_sub_cancel' h4]
    · have : x < 2 ^ i := lt_of_lt_of_le hx (Nat.pow_le_pow_right (by norm_num) (by omega))
      simp [h4, h64, Nat.testBit_lt_two_pow this, Nat.add_sub_cancel' h4]
  · simp [h4]

/-- The mask-and-add of line 13 in arithmetic form. -/
theorem alignUp_eq (blockSize : Nat) :
    alignUp blockSize = (blockSize + 15) % 2 ^ 64 / 16 * 16 := by
  have h1 : sizeSub (sizeAdd blockSize MEM_ALIGNMENT) 1 = (blockSize + 15) % 2 ^ 64 := by
    unfold sizeSub sizeAdd MEM_ALIGNMENT SIZE_MOD
    omega
  have h2 : sizeNot (sizeSub MEM_ALIGNMENT 1) = 2 ^ 64 - 16 := by decide
  unfold alignUp
  rw [h1, h2]
  unfold sizeAnd SIZE_MOD
  rw [Nat.mod_mod, Nat.mod_eq_of_lt (by norm_num : (2 ^ 64 - 16 : Nat) < 2 ^ 64)]
  exact land_mask _ (Nat.mod_lt _ (by norm_num))

theorem alignUp_lt (blockSize : Nat) : alignUp blockSize < SIZE_MOD := by
  rw [alignUp_eq]; unfold SIZE_MOD; omega

theorem alignUp_dvd (blockSize : Nat) : 16 ∣ alignUp blockSize := by
  rw [alignUp_eq]; omega

theorem alignUp_pos (blockSize : Nat) (h0 : 0 < blockSize) (h1 : blockSize ≤ 2 ^ 64 - 16) :
    0 < alignUp blockSize := by
  rw [alignUp_eq]; omega

/-! ## The constructor in closed form -/

theorem initBlocks_eq (pool bs : Nat) (blocks : List MemoryBlock) :
    ∀ k, k ≤ blocks.length →
      initBlocks pool bs k blocks =
        (if k = 0 then none else some (k - 1),
         (List.range k).map (freshBlock pool bs) ++ blocks.drop k) := by
  intro k
  induction k with
  | zero => intro _; simp [initBlocks]
  | succ k ih =>
    intro hk
    have hk' : k < blocks.length := hk
    have ih' := ih (Nat.le_of_lt hk')
    unfold initBlocks at ih' ⊢
    rw [List.range_succ, List.foldl_append, ih']
    simp only [List.foldl_cons, List.foldl_nil, initBlock]
    congr 1
    rw [List.set_append]
    simp only [List.length_map, List.length_range, Nat.lt_irrefl, if_false, Nat.sub_self]
    rw [List.drop_eq_getElem_cons hk', List.set_cons_zero, List.map_append, List.append_assoc]
    rfl

theorem initBlocks_replicate (pool bs n : Nat) :
    initBlocks pool bs n (List.replicate n default) =
      (if n = 0 then none else some (n - 1), (List.range n).map (freshBlock pool bs)) := by
  rw [initBlocks_eq pool bs _ n (by simp)]
  simp

/-- When both requests are granted and the arguments pass the test of line 16,
the constructor returns `freshPool`. -/
theorem ctor_ok (h : Heap) (blockSize blockCount pool : Nat)
    (hmax : blockCount ≤ h.max_size) (hvec : h.newBlocks blockCount = true)
    (hsize : alignUp blockSize ≠ 0) (hcount : blockCount ≠ 0)
    (hnew : h.newChars (sizeMul (alignUp blockSize) blockCount) = some pool)
    (hpush : h.newPools 1 = true) :
    (MemoryPool.ctor h blockSize blockCount).result
      = .ok (freshPool pool (alignUp blockSize) blockCount) := by
  unfold MemoryPool.ctor
  simp only [Nat.not_lt.mpr hmax, if_false, hvec, hcount, hsize, false_or, and_false,
    ne_eq, not_false_eq_true, Bool.true_eq_false, hnew, hpush, initBlocks_replicate,
    freshPool]

/-- A constructor call that returns an object has returned `freshPool`. -/
theorem ctor_ok_inv (h : Heap) (blockSize blockCount : Nat) (p : MemoryPool)
    (hp : (MemoryPool.ctor h blockSize blockCount).result = .ok p) :
    blockCount ≤ h.max_size ∧ alignUp blockSize ≠ 0 ∧ blockCount ≠ 0 ∧
      ∃ pool, h.newChars (sizeMul (alignUp blockSize) blockCount) = some pool ∧
        p = freshPool pool (alignUp blockSize) blockCount := by
  unfold MemoryPool.ctor at hp
  by_cases hmax : h.max_size < blockCount
  · simp [hmax] at hp
  · by_cases hvec : blockCount ≠ 0 ∧ h.newBlocks blockCount = false
    · simp [hmax, hvec] at hp
    · by_cases hz : alignUp blockSize = 0 ∨ blockCount = 0
      · simp only [hmax, hvec, hz, if_true, if_false] at hp
        cases hp
      · simp only [hmax, hvec, hz, if_false] at hp
        cases hnew : h.newChars (sizeMul (alignUp blockSize) blockCount) with
        | none => rw [hnew] at hp; cases hp
        | some pool =>
          rw [hnew] at hp
          by_cases hpush : h.newPools 1 = false
          · dsimp only at hp
            rw [if_pos hpush] at hp
            cases hp
          dsimp only at hp
          rw [if_neg hpush] at hp
          simp only [initBlocks_replicate, Except.ok.injEq] at hp
          refine ⟨Nat.not_lt.mp hmax, fun e => hz (Or.inl e), fun e => hz (Or.inr e), pool, rfl, ?_⟩
          rw [← hp]
          simp only [freshPool]

theorem getD_set_self (l : List MemoryBlock) (i : Nat) (x d : MemoryBlock) (h : i < l.length) :
    (l.set i x).getD i d = x := by
  simp [List.getD_eq_getElem?_getD, List.getElem?_set, h]

theorem getD_set_ne (l : List MemoryBlock) (i j : Nat) (x d : MemoryBlock) (h : i ≠ j) :
    (l.set i x).getD j d = l.getD j d := by
  simp [List.getD_eq_getElem?_getD, List.getElem?_set, h]

theorem FreeChain.congr (blocks blocks' : List MemoryBlock) :
    ∀ (free : List Nat) (head : Option Nat),
      (∀ i ∈ free, (blocks'.getD i default).next = (blocks.getD i default).next) →
      FreeChain blocks head free → FreeChain blocks' head free := by
  intro free
  induction free with
  | nil => intro head _ h; exact h
  | cons i rest ih =>
    intro head hn h
    refine ⟨h.1, ?_⟩
    rw [hn i (List.mem_cons_self _ _)]
    exact ih _ (fun j hj => hn j (List.mem_cons_of_mem _ hj)) h.2

/-- A chain determines its list. -/
theorem FreeChain.unique (blocks : List MemoryBlock) :
    ∀ (free free' : List Nat) (head : Option Nat),
      FreeChain blocks head free → FreeChain blocks head free' → free = free' := by
  intro free
  induction free with
  | nil =>
    intro free' head h h'
    cases free' with
    | nil => rfl
    | cons j r => rw [h] at h'; cases h'.1
  | cons i rest ih =>
    intro free' head h h'
    cases free' with
    | nil => rw [h'] at h; cases h.1
    | cons j r =>
      have e : i = j := by
        have := h.1.symm.trans h'.1
        exact Option.some.inj this
      subst e
      rw [ih r _ h.2 h'.2]

theorem freshPool_block (pool bs n i : Nat) (hi : i < n) :
    (freshPool pool bs n).block i = freshBlock pool bs i := by
  simp [MemoryPool.block, freshPool, List.getD_eq_getElem?_getD, hi]

theorem freshPool_chain (pool bs n : Nat) :
    ∀ k, k ≤ n →
      FreeChain (freshPool pool bs n).m_blocks (if k = 0 then none else some (k - 1))
        (List.range k).reverse := by
  intro k
  induction k with
  | zero => intro _; simp [FreeChain]
  | succ k ih =>
    intro hk
    rw [List.range_succ, List.reverse_append]
    refine ⟨by simp, ?_⟩
    have hb := freshPool_block pool bs n k hk
    unfold MemoryPool.block at hb
    rw [hb]
    exact ih (Nat.le_of_lt hk)

theorem freshPool_inv (h : Heap) (blockSize blockCount pool : Nat)
    (hcount : blockCount < SIZE_MOD)
    (hsize : alignUp blockSize ≠ 0) (hcount0 : blockCount ≠ 0)
    (hnew : h.newChars (sizeMul (alignUp blockSize) blockCount) = some pool) :
    PoolInv (freshPool pool (alignUp blockSize) blockCount) pool (List.range blockCount).reverse where
  size_pos := Nat.pos_of_ne_zero hsize
  size_lt := alignUp_lt _
  size_dvd := alignUp_dvd _
  count_pos := Nat.pos_of_ne_zero hcount0
  count_lt := hcount
  length_eq := by simp [freshPool]
  pools_eq := rfl
  pool_pos := (h.newChars_valid _ _ hnew).1
  pool_end := (h.newChars_valid _ _ hnew).2
  data_eq := by
    intro i hi
    have hi' : i < blockCount := hi
    rw [freshPool_block _ _ _ _ hi']
    rfl
  chain := by
    have := freshPool_chain pool (alignUp blockSize) blockCount blockCount (Nat.le_refl _)
    simpa [freshPool] using this
  nodup := List.nodup_reverse.mpr (List.nodup_range _)
  mem_free := by
    intro i
    simp only [List.mem_reverse, List.mem_range]
    constructor
    · intro hi
      refine ⟨hi, ?_⟩
      rw [freshPool_block _ _ _ _ hi]
      rfl
    · intro hi; exact hi.1

theorem allocate_none (p : MemoryPool) (h : p.m_head = none) :
    p.allocate = (.error .bad_alloc, p) := by
  unfold MemoryPool.allocate; rw [h]

theorem allocate_some (p : MemoryPool) (b : Nat) (h : p.m_head = some b) :
    p.allocate = (.ok (p.block b).data,
      { p with m_head := (p.block b).next,
               m_blocks := p.m_blocks.set b { p.block b with isUsed := true } }) := by
  unfold MemoryPool.allocate; rw [h]; rfl

theorem allocate_block_self (p : MemoryPool) (b : Nat) (h : p.m_head = some b)
    (hb : b < p.m_blocks.length) :
    p.allocate.2.block b = { p.block b with isUsed := true } := by
  rw [allocate_some p b h]
  exact getD_set_self _ _ _ _ hb

theorem allocate_block_ne (p : MemoryPool) (b i : Nat) (h : p.m_head = some b) (hi : i ≠ b) :
    p.allocate.2.block i = p.block i := by
  rw [allocate_some p b h]
  exact getD_set_ne _ _ _ _ _ (Ne.symm hi)

theorem allocate_inv (p : MemoryPool) (pool b : Nat) (rest : List Nat)
    (hinv : PoolInv p pool (b :: rest)) : PoolInv p.allocate.2 pool rest := by
  have hhead : p.m_head = some b := hinv.chain.1
  have hb : b < p.m_blockCount ∧ (p.block b).isUsed = false :=
    (hinv.mem_free b).1 (List.mem_cons_self _ _)
  have hlen : b < p.m_blocks.length := by rw [hinv.length_eq]; exact hb.1
  have hnd := List.nodup_cons.mp hinv.nodup
  have hself := allocate_block_self p b hhead hlen
  have hne := fun i (hi : i ≠ b) => allocate_block_ne p b i hhead hi
  have hst := congrArg Prod.snd (allocate_some p b hhead)
  simp only at hst
  have hnext : ∀ i, (p.allocate.2.block i).next = (p.block i).next := by
    intro i
    by_cases hi : i = b
    · subst hi; rw [hself]
    · rw [hne i hi]
  have hdata : ∀ i, (p.allocate.2.block i).data = (p.block i).data := by
    intro i
    by_cases hi : i = b
    · subst hi; rw [hself]
    · rw [hne i hi]
  have hbs : p.allocate.2.m_blockSize = p.m_blockSize := by rw [hst]
  have hbc : p.allocate.2.m_blockCount = p.m_blockCount := by rw [hst]
  refine
    { size_pos := hbs ▸ hinv.size_pos, size_lt := hbs ▸ hinv.size_lt,
      size_dvd := hbs ▸ hinv.size_dvd, count_pos := hbc ▸ hinv.count_pos,
      count_lt := hbc ▸ hinv.count_lt, length_eq := ?_, pools_eq := ?_,
      pool_pos := hinv.pool_pos, pool_end := ?_, data_eq := ?_, chain := ?_,
      nodup := hnd.2, mem_free := ?_ }
  · rw [hbc, hst]; simp only [List.length_set]; exact hinv.length_eq
  · rw [hst]; exact hinv.pools_eq
  · rw [hbs, hbc]; exact hinv.pool_end
  · intro i hi
    rw [hdata, hbs]
    exact hinv.data_eq i (hbc ▸ hi)
  · have hc : FreeChain p.m_blocks (p.block b).next rest := hinv.chain.2
    have hh : p.allocate.2.m_head = (p.block b).next := by rw [hst]
    rw [hh]
    exact FreeChain.congr _ _ rest _ (fun i _ => hnext i) hc
  · intro i
    rw [hbc]
    constructor
    · intro hi
      have hib : i ≠ b := fun e => hnd.1 (e ▸ hi)
      rw [hne i hib]
      exact (hinv.mem_free i).1 (List.mem_cons_of_mem _ hi)
    · intro hi
      have hib : i ≠ b := by
        intro e
        subst e
        rw [hself] at hi
        exact Bool.noConfusion hi.2
      rw [hne i hib] at hi
      rcases List.mem_cons.mp ((hinv.mem_free i).2 hi) with e | hmem
      · exact absurd e hib
      · exact hmem

/-- Under the invariant the bound of line 68 is computed without wrapping. -/
theorem PoolInv.ptrAdd_end {p : MemoryPool} {pool : Nat} {free : List Nat}
    (hinv : PoolInv p pool free) :
    ptrAdd pool (sizeMul p.m_blockSize p.m_blockCount)
      = pool + sizeMul p.m_blockSize p.m_blockCount :=
  Nat.mod_eq_of_lt hinv.pool_end

theorem sizeMul_le (a b : Nat) : sizeMul a b ≤ a * b := Nat.mod_le _ _

/-- The index computed at line 69 from an address that passed the test of line 68
is below `m_blockCount`. -/
theorem PoolInv.index_lt {p : MemoryPool} {pool : Nat} {free : List Nat}
    (hinv : PoolInv p pool free) (ptr : Nat)
    (hhi : ptr < pool + sizeMul p.m_blockSize p.m_blockCount) :
    (ptr - pool) / p.m_blockSize < p.m_blockCount := by
  rw [Nat.div_lt_iff_lt_mul hinv.size_pos]
  have := sizeMul_le p.m_blockSize p.m_blockCount
  rw [Nat.mul_comm] at this
  have hpos := Nat.mul_pos hinv.count_pos hinv.size_pos
  omega

theorem PoolInv.deallocate_eq {p : MemoryPool} {pool : Nat} {free : List Nat}
    (hinv : PoolInv p pool free) (ptr : Nat) (hptr : ptr ≠ 0) :
    p.deallocate ptr = p.deallocateIn ptr [pool] := by
  unfold MemoryPool.deallocate
  rw [if_neg hptr, hinv.pools_eq]

theorem deallocate_outside (p : MemoryPool) (pool : Nat) (free : List Nat)
    (hinv : PoolInv p pool free) (ptr : Nat) (hptr : ptr ≠ 0)
    (hout : ptr < pool ∨ pool + sizeMul p.m_blockSize p.m_blockCount ≤ ptr) :
    p.deallocate ptr = (.error (.invalid_argument .notFromThisPool), p) := by
  rw [hinv.deallocate_eq ptr hptr]
  unfold MemoryPool.deallocateIn
  rw [hinv.ptrAdd_end, if_neg (by omega)]
  rfl

theorem deallocate_free (p : MemoryPool) (pool : Nat) (free : List Nat)
    (hinv : PoolInv p pool free) (ptr : Nat)
    (hlo : pool ≤ ptr) (hhi : ptr < pool + sizeMul p.m_blockSize p.m_blockCount)
    (hfree : (p.block ((ptr - pool) / p.m_blockSize)).isUsed = false) :
    p.deallocate ptr = (.error (.invalid_argument .doubleFree), p) := by
  have hptr : ptr ≠ 0 := by have := hinv.pool_pos; omega
  rw [hinv.deallocate_eq ptr hptr]
  unfold MemoryPool.deallocateIn
  rw [hinv.ptrAdd_end, if_pos ⟨hlo, hhi⟩]
  simp only
  rw [if_neg (Nat.not_le.mpr (hinv.index_lt ptr hhi))]
  unfold MemoryPool.block at hfree
  rw [if_pos hfree]

theorem deallocate_used (p : MemoryPool) (pool : Nat) (free : List Nat)
    (hinv : PoolInv p pool free) (ptr : Nat)
    (hlo : pool ≤ ptr) (hhi : ptr < pool + sizeMul p.m_blockSize p.m_blockCount)
    (hused : (p.block ((ptr - pool) / p.m_blockSize)).isUsed = true) :
    p.deallocate ptr = (.ok (),
      { p with m_head := some ((ptr - pool) / p.m_blockSize),
               m_blocks := p.m_blocks.set ((ptr - pool) / p.m_blockSize)
                 { p.block ((ptr - pool) / p.m_blockSize) with
                   isUsed := false, next := p.m_head } }) := by
  have hptr : ptr ≠ 0 := by have := hinv.pool_pos; omega
  rw [hinv.deallocate_eq ptr hptr]
  unfold MemoryPool.deallocateIn
  rw [hinv.ptrAdd_end, if_pos ⟨hlo, hhi⟩]
  simp only
  rw [if_neg (Nat.not_le.mpr (hinv.index_lt ptr hhi))]
  unfold MemoryPool.block at hused
  rw [if_neg (by rw [hused]; decide)]
  rfl

/-- A release that does not return normally leaves the object as it was. -/
theorem deallocate_cases (p : MemoryPool) (pool : Nat) (free : List Nat)
    (hinv : PoolInv p pool free) (ptr : Nat) :
    (p.deallocate ptr).2 = p ∨
      (pool ≤ ptr ∧ ptr < pool + sizeMul p.m_blockSize p.m_blockCount ∧
        (p.block ((ptr - pool) / p.m_blockSize)).isUsed = true ∧
        (p.deallocate ptr).1 = .ok ()) := by
  by_cases hptr : ptr = 0
  · left; unfold MemoryPool.deallocate; rw [if_pos hptr]
  · by_cases hin : pool ≤ ptr ∧ ptr < pool + sizeMul p.m_blockSize p.m_blockCount
    · cases hu : (p.block ((ptr - pool) / p.m_blockSize)).isUsed with
      | false => left; rw [deallocate_free p pool free hinv ptr hin.1 hin.2 hu]
      | true =>
        right
        refine ⟨hin.1, hin.2, rfl, ?_⟩
        rw [deallocate_used p pool free hinv ptr hin.1 hin.2 hu]
    · left
      rw [deallocate_outside p pool free hinv ptr hptr (by omega)]

theorem deallocate_inv (p : MemoryPool) (pool : Nat) (free : List Nat)
    (hinv : PoolInv p pool free) (ptr : Nat)
    (hlo : pool ≤ ptr) (hhi : ptr < pool + sizeMul p.m_blockSize p.m_blockCount)
    (hused : (p.block ((ptr - pool) / p.m_blockSize)).isUsed = true) :
    PoolInv (p.deallocate ptr).2 pool ((ptr - pool) / p.m_blockSize :: free) := by
  have hst := congrArg Prod.snd (deallocate_used p pool free hinv ptr hlo hhi hused)
  simp only at hst
  generalize hq : (p.deallocate ptr).2 = q at hst
  generalize hk : (ptr - pool) / p.m_blockSize = k at hst hused
  have hkc : k < p.m_blockCount := hk ▸ hinv.index_lt ptr hhi
  have hlen : k < p.m_blocks.length := by rw [hinv.length_eq]; exact hkc
  have hkfree : k ∉ free := by
    intro hmem
    have := ((hinv.mem_free k).1 hmem).2
    rw [hused] at this
    exact Bool.noConfusion this
  have hself : q.block k = { p.block k with isUsed := false, next := p.m_head } := by
    rw [hst]; exact getD_set_self _ _ _ _ hlen
  have hne : ∀ i, i ≠ k → q.block i = p.block i := by
    intro i hi
    rw [hst]; exact getD_set_ne _ _ _ _ _ (Ne.symm hi)
  have hdata : ∀ i, (q.block i).data = (p.block i).data := by
    intro i
    by_cases hi : i = k
    · subst hi; rw [hself]
    · rw [hne i hi]
  have hbs : q.m_blockSize = p.m_blockSize := by rw [hst]
  have hbc : q.m_blockCount = p.m_blockCount := by rw [hst]
  refine
    { size_pos := hbs ▸ hinv.size_pos, size_lt := hbs ▸ hinv.size_lt,
      size_dvd := hbs ▸ hinv.size_dvd, count_pos := hbc ▸ hinv.count_pos,
      count_lt := hbc ▸ hinv.count_lt, length_eq := ?_, pools_eq := ?_,
      pool_pos := hinv.pool_pos, pool_end := ?_, data_eq := ?_, chain := ?_,
      nodup := List.nodup_cons.mpr ⟨hkfree, hinv.nodup⟩, mem_free := ?_ }
  · rw [hbc, hst]; simp only [List.length_set]; exact hinv.length_eq
  · rw [hst]; exact hinv.pools_eq
  · rw [hbs, hbc]; exact hinv.pool_end
  · intro i hi
    rw [hdata, hbs]
    exact hinv.data_eq i (hbc ▸ hi)
  · refine ⟨by rw [hst], ?_⟩
    have hn : (q.m_blocks.getD k default).next = p.m_head := by
      have := congrArg MemoryBlock.next hself
      exact this
    rw [hn]
    refine FreeChain.congr p.m_blocks q.m_blocks free _ ?_ hinv.chain
    intro i hi
    have hik : i ≠ k := fun e => hkfree (e ▸ hi)
    exact congrArg MemoryBlock.next (hne i hik)
  · intro i
    rw [hbc]
    by_cases hik : i = k
    · subst hik
      rw [hself]
      simp [hkc]
    · rw [hne i hik, List.mem_cons, ← hinv.mem_free i]
      simp [hik]

/-- A release of a non-null address returns normally only for an address inside
the buffer whose descriptor is in use. -/
theorem deallocate_ok_inv (p : MemoryPool) (pool : Nat) (free : List Nat)
    (hinv : PoolInv p pool free) (ptr : Nat) (hptr : ptr ≠ 0)
    (hok : (p.deallocate ptr).1 = .ok ()) :
    pool ≤ ptr ∧ ptr < pool + sizeMul p.m_blockSize p.m_blockCount ∧
      (p.block ((ptr - pool) / p.m_blockSize)).isUsed = true := by
  by_cases hin : pool ≤ ptr ∧ ptr < pool + sizeMul p.m_blockSize p.m_blockCount
  · cases hu : (p.block ((ptr - pool) / p.m_blockSize)).isUsed with
    | false =>
      rw [deallocate_free p pool free hinv ptr hin.1 hin.2 hu] at hok
      cases hok
    | true => exact ⟨hin.1, hin.2, rfl⟩
  · rw [deallocate_outside p pool free hinv ptr hptr (by omega)] at hok
    cases hok

/-- After a release that returned normally the descriptor of the address is free. -/
theorem deallocate_block_self (p : MemoryPool) (pool : Nat) (free : List Nat)
    (hinv : PoolInv p pool free) (ptr : Nat)
    (hlo : pool ≤ ptr) (hhi : ptr < pool + sizeMul p.m_blockSize p.m_blockCount)
    (hused : (p.block ((ptr - pool) / p.m_blockSize)).isUsed = true) :
    ((p.deallocate ptr).2.block ((ptr - pool) / p.m_blockSize)).isUsed = false ∧
      (p.deallocate ptr).2.m_head = some ((ptr - pool) / p.m_blockSize) ∧
      (p.deallocate ptr).2.m_blockSize = p.m_blockSize ∧
      (p.deallocate ptr).2.m_blockCount = p.m_blockCount := by
  have hlen : (ptr - pool) / p.m_blockSize < p.m_blocks.length := by
    rw [hinv.length_eq]; exact hinv.index_lt ptr hhi
  rw [deallocate_used p pool free hinv ptr hlo hhi hused]
  refine ⟨?_, rfl, rfl, rfl⟩
  have := getD_set_self p.m_blocks ((ptr - pool) / p.m_blockSize)
    { p.block ((ptr - pool) / p.m_blockSize) with isUsed := false, next := p.m_head }
    default hlen
  exact congrArg MemoryBlock.isUsed this

/-- When `m_blockSize * m_blockCount` does not wrap, the address held by
descriptor `i` is `pool + i * m_blockSize`, inside the buffer, and line 69 maps it
back to `i`. -/
theorem PoolInv.slot_address {p : MemoryPool} {pool : Nat} {free : List Nat}
    (hinv : PoolInv p pool free) (hfit : p.m_blockSize * p.m_blockCount < SIZE_MOD)
    (i : Nat) (hi : i < p.m_blockCount) :
    (p.block i).data = pool + i * p.m_blockSize ∧
      pool ≤ (p.block i).data ∧
      (p.block i).data < pool + sizeMul p.m_blockSize p.m_blockCount ∧
      ((p.block i).data - pool) / p.m_blockSize = i := by
  have hmul : sizeMul p.m_blockSize p.m_blockCount = p.m_blockSize * p.m_blockCount :=
    Nat.mod_eq_of_lt hfit
  have hend := hinv.pool_end
  rw [hmul] at hend
  have hstep : i * p.m_blockSize + p.m_blockSize ≤ p.m_blockSize * p.m_blockCount := by
    have := Nat.mul_le_mul_right p.m_blockSize (Nat.succ_le_of_lt hi)
    rw [Nat.succ_mul, Nat.mul_comm p.m_blockCount] at this
    exact this
  have hpos := hinv.size_pos
  have hoff : sizeMul i p.m_blockSize = i * p.m_blockSize :=
    Nat.mod_eq_of_lt (by omega)
  have haddr : (p.block i).data = pool + i * p.m_blockSize := by
    rw [hinv.data_eq i hi, hoff]
    exact Nat.mod_eq_of_lt (by omega)
  rw [haddr, hmul]
  refine ⟨rfl, by omega, by omega, ?_⟩
  rw [Nat.add_sub_cancel_left, Nat.mul_div_cancel _ hpos]

theorem available_foldl (l : List MemoryBlock) :
    ∀ c, c + l.length < SIZE_MOD →
      l.foldl (fun count block => if block.isUsed = false then sizeAdd count 1 else count) c
        = c + l.countP (fun b => !b.isUsed) := by
  induction l with
  | nil => intro c _; simp
  | cons b l ih =>
    intro c hc
    simp only [List.length_cons] at hc
    simp only [List.foldl_cons]
    by_cases hb : b.isUsed = false
    · have e : sizeAdd c 1 = c + 1 := by unfold sizeAdd; exact Nat.mod_eq_of_lt (by omega)
      rw [if_pos hb, e, ih (c + 1) (by omega)]
      simp [hb]; omega
    · rw [if_neg hb, ih c (by omega)]
      simp [hb]

theorem getAvailableBlocks_eq (p : MemoryPool) (h : p.m_blocks.length < SIZE_MOD) :
    p.getAvailableBlocks = p.m_blocks.countP (fun b => !b.isUsed) := by
  unfold MemoryPool.getAvailableBlocks
  rw [available_foldl _ 0 (by omega)]
  simp

theorem Reachable.inv {p : MemoryPool} (hp : Reachable p) :
    ∃ pool free, PoolInv p pool free := by
  induction hp with
  | ctor h blockSize blockCount p hsize hcount hp =>
    obtain ⟨_, hs, hc, pool, hnew, rfl⟩ := ctor_ok_inv h blockSize blockCount p hp
    exact ⟨pool, _, freshPool_inv h blockSize blockCount pool hcount hs hc hnew⟩
  | allocate p _ ih =>
    obtain ⟨pool, free, hinv⟩ := ih
    cases free with
    | nil =>
      have : p.m_head = none := hinv.chain
      rw [allocate_none p this]
      exact ⟨pool, [], hinv⟩
    | cons b rest => exact ⟨pool, rest, allocate_inv p pool b rest hinv⟩
  | deallocate p ptr _ _ ih =>
    obtain ⟨pool, free, hinv⟩ := ih
    rcases deallocate_cases p pool free hinv ptr with h | ⟨hlo, hhi, hused, _⟩
    · rw [h]; exact ⟨pool, free, hinv⟩
    · exact ⟨pool, _, deallocate_inv p pool free hinv ptr hlo hhi hused⟩

/-- The number of free descriptors is the length of the free chain. -/
theorem PoolInv.available {p : MemoryPool} {pool : Nat} {free : List Nat}
    (hinv : PoolInv p pool free) : p.getAvailableBlocks = free.length := by
  rw [getAvailableBlocks_eq p (by rw [hinv.length_eq]; exact hinv.count_lt)]
  have hblocks : p.m_blocks = (List.range p.m_blockCount).map p.block := by
    apply List.ext_getElem
    · simp [hinv.length_eq]
    · intro i h1 h2
      simp [MemoryPool.block, List.getD_eq_getElem?_getD, h1]
  rw [List.countP_eq_length_filter, hblocks, List.filter_map, List.length_map]
  apply List.Perm.length_eq
  rw [List.perm_ext_iff_of_nodup ((List.nodup_range _).filter _) hinv.nodup]
  intro i
  rw [hinv.mem_free i]
  simp [List.mem_filter]

/-- Writing back the element already stored at an index changes nothing. -/
theorem set_getD_self (l : List MemoryBlock) (i : Nat) (d : MemoryBlock) (h : i < l.length) :
    l.set i (l.getD i d) = l := by
  apply List.ext_getElem
  · simp
  · intro j h1 h2
    by_cases hij : i = j
    · subst hij
      simp [List.getD_eq_getElem?_getD, h]
    · simp [List.getElem_set, hij]

/-- In a reachable state a call of `allocate` that returns hands out the address
held by the descriptor at the head of the free list, which is free. -/
theorem allocate_ok_inv (p : MemoryPool) (pool : Nat) (free : List Nat)
    (hinv : PoolInv p pool free) (a : Nat) (ha : p.allocate.1 = .ok a) :
    ∃ b rest, free = b :: rest ∧ p.m_head = some b ∧ b < p.m_blockCount ∧
      (p.block b).isUsed = false ∧ a = (p.block b).data := by
  cases free with
  | nil =>
    have hhead : p.m_head = none := hinv.chain
    rw [allocate_none p hhead] at ha
    cases ha
  | cons b rest =>
    have hhead : p.m_head = some b := hinv.chain.1
    have hb := (hinv.mem_free b).1 (List.mem_cons_self _ _)
    have hres : p.allocate.1 = .ok (p.block b).data := by rw [allocate_some p b hhead]
    rw [hres] at ha
    exact ⟨b, rest, rfl, hhead, hb.1, hb.2, (Except.ok.inj ha).symm⟩

/-- Every throwing path of the loop of lines 66-84 leaves the object as it was and
throws one of the three `invalid_argument` exceptions of `deallocate`. -/
theorem deallocateIn_error (p : MemoryPool) (ptr : Nat) (e : Exception) :
    ∀ pools, (p.deallocateIn ptr pools).1 = .error e →
      (p.deallocateIn ptr pools).2 = p ∧
        (e = .invalid_argument .notFromThisPool ∨ e = .invalid_argument .doubleFree ∨
          e = .invalid_argument .outOfPoolRange) := by
  intro pools
  induction pools with
  | nil =>
    intro h
    exact ⟨rfl, Or.inl (Except.error.inj h).symm⟩
  | cons pool rest ih =>
    intro h
    unfold MemoryPool.deallocateIn at h ⊢
    by_cases hin : pool ≤ ptr ∧ ptr < ptrAdd pool (sizeMul p.m_blockSize p.m_blockCount)
    · rw [if_pos hin] at h ⊢
      dsimp only at h ⊢
      by_cases hidx : p.m_blockCount ≤ (ptr - pool) / p.m_blockSize
      · rw [if_pos hidx] at h ⊢
        exact ⟨rfl, Or.inr (Or.inr (Except.error.inj h).symm)⟩
      · rw [if_neg hidx] at h ⊢
        by_cases hu : (p.m_blocks.getD ((ptr - pool) / p.m_blockSize) default).isUsed = false
        · rw [if_pos hu] at h ⊢
          exact ⟨rfl, Or.inr (Or.inl (Except.error.inj h).symm)⟩
        · rw [if_neg hu] at h
          cases h
    · rw [if_neg hin] at h ⊢
      exact ih h

/-- A constructor call that returns an object has made exactly three requests:
the descriptor vector, the backing buffer of `m_blockSize * blockCount` bytes
(computed in `size_t`), and the one-element vector of pools. -/
theorem ctor_ok_requests (h : Heap) (blockSize blockCount : Nat) (p : MemoryPool)
    (hp : (MemoryPool.ctor h blockSize blockCount).result = .ok p) :
    (MemoryPool.ctor h blockSize blockCount).requests
      = [.blocks blockCount, .chars (sizeMul (alignUp blockSize) blockCount), .pools 1] := by
  unfold MemoryPool.ctor at hp ⊢
  by_cases hmax : h.max_size < blockCount
  · simp [hmax] at hp
  · by_cases hvec : blockCount ≠ 0 ∧ h.newBlocks blockCount = false
    · simp [hmax, hvec] at hp
    · by_cases hz : alignUp blockSize = 0 ∨ blockCount = 0
      · simp only [hmax, hvec, hz, if_true, if_false] at hp
        cases hp
      · have hc : blockCount ≠ 0 := fun e => hz (Or.inr e)
        simp only [hmax, hvec, hz, if_false] at hp ⊢
        cases hnew : h.newChars (sizeMul (alignUp blockSize) blockCount) with
        | none => rw [hnew] at hp; cases hp
        | some pool =>
          rw [hnew] at hp
          dsimp only at hp ⊢
          by_cases hpush : h.newPools 1 = false
          · rw [if_pos hpush] at hp
            cases hp
          · rw [if_neg hpush]
            simp [hc]

/-- The example pool is a reachable state. -/
theorem demoPool_reachable : Reachable demoPool :=
  Reachable.ctor Heap.demo 8 3 demoPool (by decide) (by decide) (by decide)

/-! ## Construction (C1, C2, C3) -/

/-- C1, as stated, fails: `blockSize = 2^64 - 1` and `blockCount = 1` are both
positive `size_t` values, the free store grants every request, and the
constructor still throws `invalid_argument("Block size or count cannot be zero")`,
because `blockSize + 15` wraps and the aligned size is `0`. -/
theorem ctor_positive_rejected :
    0 < 18446744073709551615 ∧ 18446744073709551615 < SIZE_MOD ∧ 0 < 1 ∧
      alignUp 18446744073709551615 = 0 ∧
      (MemoryPool.ctor Heap.demo 18446744073709551615 1).result
        = .error (.invalid_argument .zeroSizeOrCount) := by
  decide

/-- C1 (amended): let `0 < blockSize < 2^64` and `0 < blockCount < 2^64`.  For
`blockSize ≤ 2^64 - 16` the constructor never reports `InvalidConfiguration`, and
it returns an object whenever `blockCount` is within `max_size()` and the free
store grants the descriptor vector, the backing buffer and the one-element vector
of pools.  For `blockSize > 2^64 - 16` the aligned size wraps to `0` and the
constructor returns no object: it throws `length_error` when `blockCount` exceeds
`max_size()`, otherwise `bad_alloc` when the storage of the descriptor vector is
refused, and otherwise `InvalidConfiguration`.  On every object the constructor
returns, `getAvailableBlocks` is exactly `blockCount`. -/
theorem ctor_positive_available (h : Heap) (blockSize blockCount : Nat)
    (hs0 : 0 < blockSize) (hs : blockSize < SIZE_MOD)
    (hc0 : 0 < blockCount) (hc : blockCount < SIZE_MOD) :
    (blockSize ≤ 2 ^ 64 - 16 →
      (MemoryPool.ctor h blockSize blockCount).result
          ≠ .error (.invalid_argument .zeroSizeOrCount) ∧
        (blockCount ≤ h.max_size → h.newBlocks blockCount = true →
          (h.newChars (sizeMul (alignUp blockSize) blockCount)).isSome = true →
          h.newPools 1 = true →
          ∃ p, (MemoryPool.ctor h blockSize blockCount).result = .ok p)) ∧
      (2 ^ 64 - 16 < blockSize →
        (MemoryPool.ctor h blockSize blockCount).result =
          if h.max_size < blockCount then .error .length_error
          else if h.newBlocks blockCount = false then .error .bad_alloc
          else .error (.invalid_argument .zeroSizeOrCount)) ∧
      (∀ p, (MemoryPool.ctor h blockSize blockCount).result = .ok p →
        blockSize ≤ 2 ^ 64 - 16 ∧ p.getAvailableBlocks = blockCount) := by
  have hcount : blockCount ≠ 0 := Nat.pos_iff_ne_zero.mp hc0
  have hwrap : 2 ^ 64 - 16 < blockSize → alignUp blockSize = 0 := by
    intro hgt
    unfold SIZE_MOD at hs
    rw [alignUp_eq]
    omega
  refine ⟨?_, ?_, ?_⟩
  · intro hle
    have hsize : alignUp blockSize ≠ 0 :=
      Nat.pos_iff_ne_zero.mp (alignUp_pos blockSize hs0 hle)
    refine ⟨?_, ?_⟩
    · unfold MemoryPool.ctor
      simp only [hsize, hcount, or_self, if_false]
      split
      · simp
      · split
        · simp
        · split
          · simp
          · split <;> simp
    · intro hmax hvec hnew hpush
      obtain ⟨pool, hpool⟩ := Option.isSome_iff_exists.mp hnew
      exact ⟨_, ctor_ok h blockSize blockCount pool hmax hvec hsize hcount hpool hpush⟩
  · intro hgt
    have hz := hwrap hgt
    unfold MemoryPool.ctor
    by_cases hmax : h.max_size < blockCount
    · simp [hmax]
    · by_cases hv : h.newBlocks blockCount = false
      · simp [hmax, hcount, hv]
      · simp [hmax, hcount, hv, hz]
  · intro p hp
    obtain ⟨_, hsize, _, pool, hnew, rfl⟩ := ctor_ok_inv h blockSize blockCount p hp
    refine ⟨?_, ?_⟩
    · by_contra hgt
      exact hsize (hwrap (by omega))
    · rw [(freshPool_inv h blockSize blockCount pool hc hsize hcount hnew).available]
      simp

/-- Witness for C1 (amended): `MemoryPool(8, 5)`, the pool of the basic test. -/
theorem ctor_positive_available_witness :
    (0 < 8 ∧ 8 < SIZE_MOD ∧ 0 < 5 ∧ 5 < SIZE_MOD) ∧
      (MemoryPool.ctor Heap.demo 8 5).result ≠ .error (.invalid_argument .zeroSizeOrCount) ∧
      (∃ p, (MemoryPool.ctor Heap.demo 8 5).result = .ok p) ∧
      (∀ p, (MemoryPool.ctor Heap.demo 8 5).result = .ok p → p.getAvailableBlocks = 5) :=
  have w := ctor_positive_available Heap.demo 8 5 (by decide) (by decide) (by decide)
    (by decide)
  ⟨by decide, (w.1 (by decide)).1,
    (w.1 (by decide)).2 (by decide) (by decide) (by decide) (by decide),
    fun p hp => (w.2.2 p hp).2⟩

/-- C2, as stated, fails: `MemoryPool(0, 1)` is rejected with `InvalidConfiguration`
only after the member initialiser `m_blocks(blockCount)` has asked the free store
for a vector of one descriptor. -/
theorem ctor_zero_size_after_request :
    (MemoryPool.ctor Heap.demo 0 1).result = .error (.invalid_argument .zeroSizeOrCount) ∧
      (MemoryPool.ctor Heap.demo 0 1).requests = [.blocks 1] ∧
      (MemoryPool.ctor Heap.demo 0 1).requests ≠ [] := by
  decide

/-- C2 (amended): `MemoryPool(n, 0)` throws `InvalidConfiguration` without any
request to the free store.  `MemoryPool(0, n)` never returns an object and never
requests the backing buffer; the only request it makes is the descriptor vector
`m_blocks(n)` of the member initialiser, and it throws `InvalidConfiguration`
when that vector is built, `length_error` when `n` exceeds `max_size()`, and
`bad_alloc` when the vector's storage is refused. -/
theorem ctor_zero_rejected (h : Heap) (n : Nat) :
    ((MemoryPool.ctor h n 0).result = .error (.invalid_argument .zeroSizeOrCount) ∧
      (MemoryPool.ctor h n 0).requests = []) ∧
    ((MemoryPool.ctor h 0 n).requests
        = if n = 0 ∨ h.max_size < n then [] else [.blocks n]) ∧
    ((MemoryPool.ctor h 0 n).result =
      if h.max_size < n then .error .length_error
      else if n ≠ 0 ∧ h.newBlocks n = false then .error .bad_alloc
      else .error (.invalid_argument .zeroSizeOrCount)) := by
  have h0 : alignUp 0 = 0 := by decide
  refine ⟨⟨?_, ?_⟩, ?_, ?_⟩
  · simp [MemoryPool.ctor]
  · simp [MemoryPool.ctor]
  · unfold MemoryPool.ctor
    by_cases hmax : h.max_size < n
    · simp [hmax]
    · by_cases hn : n = 0
      · simp [hn]
      · by_cases hv : h.newBlocks n = false
        · simp [hmax, hn, hv]
        · simp [hmax, hn, hv, h0]
  · unfold MemoryPool.ctor
    by_cases hmax : h.max_size < n
    · simp [hmax]
    · by_cases hn : n = 0
      · simp [hn]
      · by_cases hv : h.newBlocks n = false
        · simp [hmax, hn, hv]
        · simp [hmax, hn, hv, h0]

/-- C3, as stated, fails: for `blockSize = 2^64 - 1` the sum `blockSize + 15`
wraps, the aligned size is `0`, and `0 >= blockSize` does not hold. -/
theorem alignUp_not_ge :
    18446744073709551615 < SIZE_MOD ∧ alignUp 18446744073709551615 = 0 ∧
      ¬ (18446744073709551615 ≤ alignUp 18446744073709551615) := by
  decide

/-- C3 (amended): the aligned size is always a multiple of 16 below
`blockSize + 16`.  For `blockSize ≤ 2^64 - 16` it is the least multiple of 16 that
is `≥ blockSize` (so it is `blockSize` itself when that is a multiple of 16); for
a larger `size_t` value the sum wraps and the aligned size is `0`. -/
theorem alignUp_rounds_up (blockSize : Nat) (hlt : blockSize < SIZE_MOD) :
    MEM_ALIGNMENT ∣ alignUp blockSize ∧ alignUp blockSize < blockSize + MEM_ALIGNMENT ∧
      (blockSize ≤ 2 ^ 64 - 16 →
        blockSize ≤ alignUp blockSize ∧
        (MEM_ALIGNMENT ∣ blockSize → alignUp blockSize = blockSize) ∧
        ∀ m, MEM_ALIGNMENT ∣ m → blockSize ≤ m → alignUp blockSize ≤ m) ∧
      (2 ^ 64 - 16 < blockSize → alignUp blockSize = 0) := by
  unfold SIZE_MOD at hlt
  unfold MEM_ALIGNMENT
  rw [alignUp_eq]
  refine ⟨by omega, by omega, ?_, by omega⟩
  intro h
  refine ⟨by omega, by omega, ?_⟩
  intro m hm hle
  omega

/-- Witness for C3 (amended): a request of 17 bytes is rounded up to 32. -/
theorem alignUp_rounds_up_witness :
    17 < SIZE_MOD ∧ MEM_ALIGNMENT ∣ alignUp 17 ∧ alignUp 17 < 17 + MEM_ALIGNMENT ∧
      17 ≤ alignUp 17 ∧ alignUp 17 = 32 :=
  have w := alignUp_rounds_up 17 (by decide)
  ⟨by decide, w.1, w.2.1, (w.2.2.1 (by decide)).1, by decide⟩

/-! ## allocate (C4) -/

/-- C4: in every reachable state `allocate` throws `bad_alloc` exactly when
`getAvailableBlocks` is `0`, that is when no descriptor has `isUsed == false`; it
throws nothing else, and a failing call leaves the object untouched.  Otherwise the free-list head is a descriptor
`b` whose flag is `false`; `allocate` returns its address, sets its flag to
`true`, moves the head to `b`'s successor, and changes neither the flag of any
other descriptor nor the address of any descriptor. -/
theorem allocate_contract (p : MemoryPool) (hp : Reachable p) :
    (p.allocate.1 = .error .bad_alloc ↔ p.getAvailableBlocks = 0) ∧
    (∀ e, p.allocate.1 = .error e → e = .bad_alloc) ∧
    (p.getAvailableBlocks = 0 ↔ ∀ i, i < p.m_blockCount → (p.block i).isUsed = true) ∧
    (p.getAvailableBlocks = 0 → p.allocate.2 = p) ∧
    (p.getAvailableBlocks ≠ 0 →
      ∃ b, p.m_head = some b ∧ b < p.m_blockCount ∧
        (p.block b).isUsed = false ∧
        p.allocate.1 = .ok (p.block b).data ∧
        (p.allocate.2.block b).isUsed = true ∧
        p.allocate.2.m_head = (p.block b).next ∧
        (∀ i, i ≠ b → (p.allocate.2.block i).isUsed = (p.block i).isUsed) ∧
        (∀ i, (p.allocate.2.block i).data = (p.block i).data) ∧
        p.allocate.2.m_blocks.length = p.m_blocks.length) := by
  obtain ⟨pool, free, hinv⟩ := hp.inv
  rw [hinv.available]
  cases free with
  | nil =>
    have hhead : p.m_head = none := hinv.chain
    rw [allocate_none p hhead]
    refine ⟨by simp, fun e he => (Except.error.inj he).symm, ?_, fun _ => rfl,
      fun h => absurd rfl h⟩
    simp only [List.length_nil, true_iff]
    intro i hi
    cases hu : (p.block i).isUsed with
    | true => rfl
    | false => exact absurd ((hinv.mem_free i).2 ⟨hi, hu⟩) (List.not_mem_nil i)
  | cons b rest =>
    have hhead : p.m_head = some b := hinv.chain.1
    have hb := (hinv.mem_free b).1 (List.mem_cons_self _ _)
    have hlen : b < p.m_blocks.length := by rw [hinv.length_eq]; exact hb.1
    have hself := allocate_block_self p b hhead hlen
    have hne := fun i (hi : i ≠ b) => allocate_block_ne p b i hhead hi
    have hres : p.allocate.1 = .ok (p.block b).data := by rw [allocate_some p b hhead]
    refine ⟨?_, ?_, ?_, ?_, ?_⟩
    · rw [hres]; simp
    · intro e he
      rw [hres] at he
      cases he
    · simp only [List.length_cons, Nat.succ_ne_zero, false_iff]
      intro hall
      have := hall b hb.1
      rw [hb.2] at this
      exact Bool.noConfusion this
    · intro h; simp at h
    · intro _
      refine ⟨b, hhead, hb.1, hb.2, hres, by rw [hself], ?_, ?_, ?_, ?_⟩
      · rw [allocate_some p b hhead]
      · intro i hi; rw [hne i hi]
      · intro i
        by_cases hi : i = b
        · subst hi; rw [hself]
        · rw [hne i hi]
      · rw [allocate_some p b hhead]; simp

/-- Witness for C4: the fresh pool of `MemoryPool(8, 3)`. -/
theorem allocate_contract_witness :
    Reachable demoPool ∧ demoPool.getAvailableBlocks ≠ 0 ∧
      ∃ b, demoPool.m_head = some b ∧ demoPool.allocate.1 = .ok (demoPool.block b).data ∧
        (demoPool.allocate.2.block b).isUsed = true :=
  have w := (allocate_contract demoPool demoPool_reachable).2.2.2.2 (by decide)
  ⟨demoPool_reachable, by decide, w.elim fun b hb => ⟨b, hb.1, hb.2.2.2.1, hb.2.2.2.2.1⟩⟩

/-! ## Round trips on a pool whose size computation wraps (C5, C6) -/

/-- Supporting lemma for C5: in every reachable state a successful `allocate`
lowers `getAvailableBlocks` by one; when moreover the product
`m_blockSize * m_blockCount` does not wrap, the release of the returned address
returns normally and `getAvailableBlocks` is back at its former value. -/
theorem allocate_deallocate_available (p : MemoryPool) (hp : Reachable p) (a : Nat)
    (ha : p.allocate.1 = .ok a) :
    p.allocate.2.getAvailableBlocks + 1 = p.getAvailableBlocks ∧
      (p.m_blockSize * p.m_blockCount < SIZE_MOD →
        (p.allocate.2.deallocate a).1 = .ok () ∧
        (p.allocate.2.deallocate a).2.getAvailableBlocks = p.getAvailableBlocks) := by
  obtain ⟨pool, free, hinv⟩ := hp.inv
  cases free with
  | nil =>
    have hhead : p.m_head = none := hinv.chain
    rw [allocate_none p hhead] at ha
    cases ha
  | cons b rest =>
    have hhead : p.m_head = some b := hinv.chain.1
    have hb := (hinv.mem_free b).1 (List.mem_cons_self _ _)
    have hlen : b < p.m_blocks.length := by rw [hinv.length_eq]; exact hb.1
    have hinv' := allocate_inv p pool b rest hinv
    have hst := congrArg Prod.snd (allocate_some p b hhead)
    simp only at hst
    have hbs : p.allocate.2.m_blockSize = p.m_blockSize := by rw [hst]
    have hbc : p.allocate.2.m_blockCount = p.m_blockCount := by rw [hst]
    have hself := allocate_block_self p b hhead hlen
    have hres : p.allocate.1 = .ok (p.block b).data := by rw [allocate_some p b hhead]
    have hab : a = (p.block b).data := by
      rw [hres] at ha
      exact (Except.ok.inj ha).symm
    refine ⟨by rw [hinv'.available, hinv.available]; rfl, ?_⟩
    intro hfit
    obtain ⟨_, hlo, hhi, hidx⟩ := hinv.slot_address hfit b hb.1
    rw [← hab] at hlo hhi hidx
    have hhi' : a < pool + sizeMul p.allocate.2.m_blockSize p.allocate.2.m_blockCount := by
      rw [hbs, hbc]; exact hhi
    have hused : (p.allocate.2.block ((a - pool) / p.allocate.2.m_blockSize)).isUsed = true := by
      rw [hbs, hidx, hself]
    have hinv2 := deallocate_inv p.allocate.2 pool rest hinv' a hlo hhi' hused
    refine ⟨?_, ?_⟩
    · rw [deallocate_used p.allocate.2 pool rest hinv' a hlo hhi' hused]
    · rw [hinv2.available, hinv.available]; rfl

/-- C5 at the failing input `MemoryPool(2^63 + 16, 2)`: the constructor returns an
object after requesting `new char[32]`, `allocate` returns `4096 + 2^63 + 16` and
`getAvailableBlocks` drops from 2 to 1, but the release of that very address
throws "Pointer not from this pool" and `getAvailableBlocks` stays at 1. -/
theorem wrapped_release_fails :
    9223372036854775824 < SIZE_MOD ∧
      (MemoryPool.ctor Heap.demo 9223372036854775824 2).result = .ok wrappedPool ∧
      (MemoryPool.ctor Heap.demo 9223372036854775824 2).requests
        = [.blocks 2, .chars 32, .pools 1] ∧
      wrappedPool.getAvailableBlocks = 2 ∧
      wrappedPool.allocate.1 = .ok 9223372036854779920 ∧
      wrappedPool.allocate.2.getAvailableBlocks = 1 ∧
      (wrappedPool.allocate.2.deallocate 9223372036854779920).1
        = .error (.invalid_argument .notFromThisPool) ∧
      (wrappedPool.allocate.2.deallocate 9223372036854779920).2.getAvailableBlocks = 1 := by
  decide

/-- As many calls of `allocate` as the free chain is long all return, handing out
the addresses of the chain in order, and leave the chain empty. -/
theorem allocateN_chain (pool : Nat) :
    ∀ (free : List Nat) (p : MemoryPool), PoolInv p pool free →
      (allocateN free.length p).1 = free.map (fun i => Except.ok (p.block i).data) ∧
      PoolInv (allocateN free.length p).2 pool [] ∧
      (allocateN free.length p).2.m_blockSize = p.m_blockSize ∧
      (allocateN free.length p).2.m_blockCount = p.m_blockCount := by
  intro free
  induction free with
  | nil => intro p hinv; exact ⟨rfl, hinv, rfl, rfl⟩
  | cons b rest ih =>
    intro p hinv
    have hhead : p.m_head = some b := hinv.chain.1
    have hb := (hinv.mem_free b).1 (List.mem_cons_self _ _)
    have hinv' := allocate_inv p pool b rest hinv
    have hst := congrArg Prod.snd (allocate_some p b hhead)
    simp only at hst
    have hbs : p.allocate.2.m_blockSize = p.m_blockSize := by rw [hst]
    have hbc : p.allocate.2.m_blockCount = p.m_blockCount := by rw [hst]
    obtain ⟨h1, h2, h3, h4⟩ := ih p.allocate.2 hinv'
    have hres : p.allocate.1 = .ok (p.block b).data := by rw [allocate_some p b hhead]
    refine ⟨?_, h2, h3.trans hbs, h4.trans hbc⟩
    show p.allocate.1 :: (allocateN rest.length p.allocate.2).1 = _
    rw [h1, hres, List.map_cons]
    congr 1
    apply List.map_congr_left
    intro i hi
    have hic : i < p.m_blockCount := ((hinv.mem_free i).1 (List.mem_cons_of_mem _ hi)).1
    rw [hinv'.data_eq i (hbc ▸ hic), hinv.data_eq i hic, hbs]

/-- Supporting lemma for C6: on the object returned by the constructor for
`blockCount = n`, the first `n` calls of `allocate` all return, and the next one
throws `bad_alloc`.  When moreover `m_blockSize * n` does not wrap, the release of
any of the `n` returned addresses returns normally and the next `allocate`
returns (that same address). -/
theorem fresh_exhaust_release (h : Heap) (blockSize n : Nat) (p : MemoryPool)
    (hn : n < SIZE_MOD) (hp : (MemoryPool.ctor h blockSize n).result = .ok p) :
    (allocateN n p).1.length = n ∧
    (∀ r ∈ (allocateN n p).1, ∃ a, r = .ok a) ∧
    (allocateN n p).2.allocate = (.error .bad_alloc, (allocateN n p).2) ∧
    (p.m_blockSize * n < SIZE_MOD → ∀ a, .ok a ∈ (allocateN n p).1 →
      ((allocateN n p).2.deallocate a).1 = .ok () ∧
      ((allocateN n p).2.deallocate a).2.allocate.1 = .ok a) := by
  obtain ⟨_, hs, hc, pool, hnew, rfl⟩ := ctor_ok_inv h blockSize n p hp
  have hinv := freshPool_inv h blockSize n pool hn hs hc hnew
  have hlen : (List.range n).reverse.length = n := by simp
  obtain ⟨h1, h2, h3, h4⟩ := allocateN_chain pool _ _ hinv
  rw [hlen] at h1 h2 h3 h4
  generalize allocateN n (freshPool pool (alignUp blockSize) n) = res at h1 h2 h3 h4
  have hcount : (freshPool pool (alignUp blockSize) n).m_blockCount = n := rfl
  refine ⟨by rw [h1]; simp, ?_, allocate_none _ h2.chain, ?_⟩
  · intro r hr
    rw [h1] at hr
    obtain ⟨i, _, rfl⟩ := List.mem_map.mp hr
    exact ⟨_, rfl⟩
  · intro hfit a ha
    rw [h1] at ha
    obtain ⟨i, hi, hia⟩ := List.mem_map.mp ha
    have hic : i < n := by simpa using hi
    have hic' : i < res.2.m_blockCount := by rw [h4]; exact hic
    have hfit' : res.2.m_blockSize * res.2.m_blockCount < SIZE_MOD := by
      rw [h3, h4]; exact hfit
    have hdata : (res.2.block i).data = a := by
      rw [h2.data_eq i hic', h3, ← hinv.data_eq i hic]
      exact Except.ok.inj hia
    obtain ⟨_, hlo, hhi, hidx⟩ := h2.slot_address hfit' i hic'
    rw [hdata] at hlo hhi hidx
    have hused : (res.2.block ((a - pool) / res.2.m_blockSize)).isUsed = true := by
      rw [hidx]
      cases hu : (res.2.block i).isUsed with
      | true => rfl
      | false => exact absurd ((h2.mem_free i).2 ⟨hic', hu⟩) (List.not_mem_nil i)
    have hinv' := deallocate_inv res.2 pool [] h2 a hlo hhi hused
    have hst := deallocate_block_self res.2 pool [] h2 a hlo hhi hused
    refine ⟨?_, ?_⟩
    · rw [deallocate_used res.2 pool [] h2 a hlo hhi hused]
    · rw [allocate_some _ _ hst.2.1, hidx]
      have : i < (res.2.deallocate a).2.m_blockCount := by rw [hst.2.2.2]; exact hic'
      show Except.ok ((res.2.deallocate a).2.block i).data = Except.ok a
      rw [hinv'.data_eq i this, hst.2.2.1, ← h2.data_eq i hic', hdata]

/-- C6 at the failing input `MemoryPool(2^63 + 16, 2)`: the two calls of `allocate`
return `4096 + 2^63 + 16` and `4096`, the third throws `bad_alloc`; the release of
the first returned address then throws "Pointer not from this pool", and the next
`allocate` throws `bad_alloc` again. -/
theorem wrapped_exhausted_after_release :
    9223372036854775824 < SIZE_MOD ∧
      (MemoryPool.ctor Heap.demo 9223372036854775824 2).result = .ok wrappedPool ∧
      wrappedPool.allocate.1 = .ok 9223372036854779920 ∧
      wrappedPool.allocate.2.allocate.1 = .ok 4096 ∧
      wrappedPool.allocate.2.allocate.2.allocate.1 = .error .bad_alloc ∧
      (wrappedPool.allocate.2.allocate.2.allocate.2.deallocate 9223372036854779920).1
        = .error (.invalid_argument .notFromThisPool) ∧
      (wrappedPool.allocate.2.allocate.2.allocate.2.deallocate
          9223372036854779920).2.allocate.1
        = .error .bad_alloc := by
  decide

/-! ## deallocate (C7, C8, C9, C10) -/

/-- C7: in every reachable state, releasing a second time a non-null address
whose release has just returned normally throws
`invalid_argument("Double free detected")` and changes nothing; this holds in
particular for an address that `allocate` has just returned.  More generally, the
release of an address inside the backing buffer whose computed descriptor has
`isUsed == false` throws that exception. -/
theorem deallocate_twice (p : MemoryPool) (hp : Reachable p) :
    (∀ ptr, ptr ≠ 0 → (p.deallocate ptr).1 = .ok () →
      (p.deallocate ptr).2.deallocate ptr
        = (.error (.invalid_argument .doubleFree), (p.deallocate ptr).2)) ∧
    (∀ a, p.allocate.1 = .ok a → a ≠ 0 → (p.allocate.2.deallocate a).1 = .ok () →
      ((p.allocate.2.deallocate a).2.deallocate a).1
        = .error (.invalid_argument .doubleFree)) ∧
    (∀ ptr, ∀ pool ∈ p.m_pools,
      pool ≤ ptr → ptr < pool + sizeMul p.m_blockSize p.m_blockCount →
      (p.block ((ptr - pool) / p.m_blockSize)).isUsed = false →
      p.deallocate ptr = (.error (.invalid_argument .doubleFree), p)) := by
  have key : ∀ q : MemoryPool, Reachable q → ∀ ptr, ptr ≠ 0 → (q.deallocate ptr).1 = .ok () →
      (q.deallocate ptr).2.deallocate ptr
        = (.error (.invalid_argument .doubleFree), (q.deallocate ptr).2) := by
    intro q hq ptr hptr hok
    obtain ⟨pool, free, hinv⟩ := hq.inv
    obtain ⟨hlo, hhi, hused⟩ := deallocate_ok_inv q pool free hinv ptr hptr hok
    have hinv' := deallocate_inv q pool free hinv ptr hlo hhi hused
    obtain ⟨hfree, _, hbs, hbc⟩ := deallocate_block_self q pool free hinv ptr hlo hhi hused
    refine deallocate_free _ pool _ hinv' ptr hlo ?_ ?_
    · rw [hbs, hbc]; exact hhi
    · rw [hbs]; exact hfree
  refine ⟨key p hp, ?_, ?_⟩
  · intro a _ ha hok
    rw [key p.allocate.2 (Reachable.allocate p hp) a ha hok]
  · intro ptr pool hmem hlo hhi hfree
    obtain ⟨pool', free, hinv⟩ := hp.inv
    rw [hinv.pools_eq, List.mem_singleton] at hmem
    subst hmem
    exact deallocate_free p pool free hinv ptr hlo hhi hfree

/-- Witness for C7: allocate from the fresh pool of `MemoryPool(8, 3)`, release the
address `4128`, release it again. -/
theorem deallocate_twice_witness :
    Reachable demoPool ∧ demoPool.allocate.1 = .ok 4128 ∧
      (demoPool.allocate.2.deallocate 4128).1 = .ok () ∧
      ((demoPool.allocate.2.deallocate 4128).2.deallocate 4128).1
        = .error (.invalid_argument .doubleFree) :=
  ⟨demoPool_reachable, by decide, by decide,
    (deallocate_twice demoPool demoPool_reachable).2.1 4128 (by decide) (by decide) (by decide)⟩

/-- C8: in every reachable state, the release of a non-null address outside
`[base, base + alignedBlockSize × blockCount)` throws
`invalid_argument("Pointer not from this pool")`, an `InvalidPointer` error, and
changes nothing. -/
theorem deallocate_outside_buffer (p : MemoryPool) (hp : Reachable p) (ptr : Nat)
    (hptr : ptr ≠ 0)
    (hout : ∀ pool ∈ p.m_pools, ptr < pool ∨ pool + p.m_blockSize * p.m_blockCount ≤ ptr) :
    p.deallocate ptr = (.error (.invalid_argument .notFromThisPool), p) ∧
      (Exception.invalid_argument Message.notFromThisPool).isInvalidPointer = true := by
  obtain ⟨pool, free, hinv⟩ := hp.inv
  have h := hout pool (by rw [hinv.pools_eq]; exact List.mem_singleton_self _)
  have hle := sizeMul_le p.m_blockSize p.m_blockCount
  exact ⟨deallocate_outside p pool free hinv ptr hptr (by omega), rfl⟩

/-- Witness for C8: the fresh pool of `MemoryPool(8, 3)` owns `[4096, 4144)`; the
address `4144` is one past its end. -/
theorem deallocate_outside_buffer_witness :
    Reachable demoPool ∧ (4144 : Nat) ≠ 0 ∧
      (∀ pool ∈ demoPool.m_pools, 4144 < pool ∨
        pool + demoPool.m_blockSize * demoPool.m_blockCount ≤ 4144) ∧
      demoPool.deallocate 4144 = (.error (.invalid_argument .notFromThisPool), demoPool) :=
  ⟨demoPool_reachable, by decide, by decide,
    (deallocate_outside_buffer demoPool demoPool_reachable 4144 (by decide) (by decide)).1⟩

/-- C10: in every state `deallocate(nullptr)` returns normally and leaves the
whole object (head, flags, links, addresses) as it was. -/
theorem deallocate_null (p : MemoryPool) : p.deallocate 0 = (.ok (), p) := by
  unfold MemoryPool.deallocate
  rw [if_pos rfl]

/-! ## Returned addresses and aliasing (C11, C12) -/

/-- Supporting lemma for C11: in a reachable state whose product
`m_blockSize * m_blockCount` does not wrap, every address returned by `allocate`
is `base + index * m_blockSize` for an index below `m_blockCount`, its offset from
`base` is a multiple of 16, and the whole block lies inside
`[base, base + m_blockSize * m_blockCount)`. -/
theorem allocate_address_in_buffer (p : MemoryPool) (hp : Reachable p)
    (hfit : p.m_blockSize * p.m_blockCount < SIZE_MOD) (a : Nat)
    (ha : p.allocate.1 = .ok a) :
    ∀ pool ∈ p.m_pools,
      (∃ index, index < p.m_blockCount ∧ a = pool + index * p.m_blockSize) ∧
      MEM_ALIGNMENT ∣ (a - pool) ∧ pool ≤ a ∧
      a + p.m_blockSize ≤ pool + p.m_blockSize * p.m_blockCount := by
  intro pool' hmem
  obtain ⟨pool, free, hinv⟩ := hp.inv
  rw [hinv.pools_eq, List.mem_singleton] at hmem
  subst hmem
  obtain ⟨b, rest, _, _, hb, _, hab⟩ := allocate_ok_inv p pool' free hinv a ha
  obtain ⟨haddr, hlo, _, _⟩ := hinv.slot_address hfit b hb
  rw [← hab] at haddr hlo
  have hstep : b * p.m_blockSize + p.m_blockSize ≤ p.m_blockSize * p.m_blockCount := by
    have := Nat.mul_le_mul_right p.m_blockSize (Nat.succ_le_of_lt hb)
    rw [Nat.succ_mul, Nat.mul_comm p.m_blockCount] at this
    exact this
  refine ⟨⟨b, hb, haddr⟩, ?_, hlo, by omega⟩
  rw [haddr, Nat.add_sub_cancel_left]
  exact Dvd.dvd.mul_left hinv.size_dvd b

/-- C11 at the failing input `MemoryPool(2^63 + 16, 4)`: the constructor obtains a
buffer of 64 bytes at `4096`, and the first `allocate` returns
`4096 + 2^63 + 48`, which is `base + index × alignedBlockSize` for no index below
4 and lies outside the buffer `[4096, 4096 + 64)`. -/
theorem wrapped_address_not_slot :
    9223372036854775824 < SIZE_MOD ∧
      (MemoryPool.ctor Heap.demo 9223372036854775824 4).result = .ok wrappedPool4 ∧
      (MemoryPool.ctor Heap.demo 9223372036854775824 4).requests
        = [.blocks 4, .chars 64, .pools 1] ∧
      wrappedPool4.m_blockSize = 9223372036854775824 ∧
      wrappedPool4.allocate.1 = .ok 9223372036854779952 ∧
      (∀ index, index < 4 →
        4096 + index * wrappedPool4.m_blockSize ≠ 9223372036854779952) ∧
      ¬ (9223372036854779952 < 4096 + 64) := by
  decide

/-- Supporting lemma for C12: in a reachable state whose product
`m_blockSize * m_blockCount` does not wrap, the blocks of two different
descriptors are at least `m_blockSize` apart, and the address returned by
`allocate` is at least `m_blockSize` away from the address of every descriptor
that is in use. -/
theorem blocks_disjoint (p : MemoryPool) (hp : Reachable p)
    (hfit : p.m_blockSize * p.m_blockCount < SIZE_MOD) :
    (∀ i j, i < p.m_blockCount → j < p.m_blockCount → i ≠ j →
      (p.block i).data + p.m_blockSize ≤ (p.block j).data ∨
      (p.block j).data + p.m_blockSize ≤ (p.block i).data) ∧
    (∀ a, p.allocate.1 = .ok a → ∀ j, j < p.m_blockCount → (p.block j).isUsed = true →
      a + p.m_blockSize ≤ (p.block j).data ∨ (p.block j).data + p.m_blockSize ≤ a) := by
  obtain ⟨pool, free, hinv⟩ := hp.inv
  have hsep : ∀ i j, i < p.m_blockCount → j < p.m_blockCount → i < j →
      (p.block i).data + p.m_blockSize ≤ (p.block j).data := by
    intro i j hi hj hij
    rw [(hinv.slot_address hfit i hi).1, (hinv.slot_address hfit j hj).1]
    have := Nat.mul_le_mul_right p.m_blockSize (Nat.succ_le_of_lt hij)
    rw [Nat.succ_mul] at this
    omega
  have hall : ∀ i j, i < p.m_blockCount → j < p.m_blockCount → i ≠ j →
      (p.block i).data + p.m_blockSize ≤ (p.block j).data ∨
      (p.block j).data + p.m_blockSize ≤ (p.block i).data := by
    intro i j hi hj hij
    rcases Nat.lt_or_gt_of_ne hij with h | h
    · exact Or.inl (hsep i j hi hj h)
    · exact Or.inr (hsep j i hj hi h)
  refine ⟨hall, ?_⟩
  intro a ha j hj hused
  obtain ⟨b, rest, _, _, hb, hfree, hab⟩ := allocate_ok_inv p pool free hinv a ha
  have hbj : b ≠ j := by
    intro e
    subst e
    rw [hfree] at hused
    exact Bool.noConfusion hused
  rw [hab]
  exact hall b j hb hj hbj

/-- C12 at the failing inputs.  In the pool of `MemoryPool(2^63, 4)` the first and
the third `allocate` return the same address `4096 + 2^63`, with no release in
between.  In the pool of `MemoryPool(2^63 + 16, 4)` the first and the third
`allocate` return addresses only 32 bytes apart, less than the block size. -/
theorem wrapped_blocks_alias :
    9223372036854775808 < SIZE_MOD ∧
      (MemoryPool.ctor Heap.demo 9223372036854775808 4).result = .ok aliasPool ∧
      (MemoryPool.ctor Heap.demo 9223372036854775808 4).requests
        = [.blocks 4, .chars 0, .pools 1] ∧
      aliasPool.allocate.1 = .ok 9223372036854779904 ∧
      aliasPool.allocate.2.allocate.1 = .ok 4096 ∧
      aliasPool.allocate.2.allocate.2.allocate.1 = .ok 9223372036854779904 ∧
      (MemoryPool.ctor Heap.demo 9223372036854775824 4).result = .ok wrappedPool4 ∧
      wrappedPool4.allocate.1 = .ok 9223372036854779952 ∧
      wrappedPool4.allocate.2.allocate.2.allocate.1 = .ok 9223372036854779920 ∧
      9223372036854779952 - 9223372036854779920 = 32 ∧
      32 < wrappedPool4.m_blockSize := by
  decide

/-! ## Diagnostics and the free-list invariant (C13, C15) -/

/-- C13: in every reachable state `getAvailableBlocks` returns the number of
descriptors whose `isUsed` flag is `false`, counted over the whole array, and that
number is the length of the free list walked from `m_head` to `nullptr` (the walk
is unique).  The member is `const`: it is a function of the state and produces
no new state. -/
theorem getAvailableBlocks_counts_free (p : MemoryPool) (hp : Reachable p) :
    p.getAvailableBlocks = (p.m_blocks.filter (fun b => !b.isUsed)).length ∧
    p.getAvailableBlocks
      = ((List.range p.m_blockCount).filter (fun i => !(p.block i).isUsed)).length ∧
    ∃ free, FreeChain p.m_blocks p.m_head free ∧ p.getAvailableBlocks = free.length ∧
      ∀ free', FreeChain p.m_blocks p.m_head free' → free' = free := by
  obtain ⟨pool, free, hinv⟩ := hp.inv
  have hlen : p.m_blocks.length < SIZE_MOD := by rw [hinv.length_eq]; exact hinv.count_lt
  have hblocks : p.m_blocks = (List.range p.m_blockCount).map p.block := by
    apply List.ext_getElem
    · simp [hinv.length_eq]
    · intro i h1 h2
      simp [MemoryPool.block, List.getD_eq_getElem?_getD, h1]
  have hcount := getAvailableBlocks_eq p hlen
  rw [List.countP_eq_length_filter] at hcount
  refine ⟨hcount, ?_, free, hinv.chain, hinv.available, ?_⟩
  · rw [hcount]
    conv_lhs => rw [hblocks]
    rw [List.filter_map, List.length_map]
    rfl
  · intro free' h'
    exact FreeChain.unique p.m_blocks free' free p.m_head h' hinv.chain

/-- Witness for C13: the pool of `MemoryPool(8, 3)` after one `allocate`; two
descriptors are free and the free list is `1, 0`. -/
theorem getAvailableBlocks_counts_free_witness :
    Reachable demoPool.allocate.2 ∧ demoPool.allocate.2.getAvailableBlocks = 2 ∧
      (demoPool.allocate.2.m_blocks.filter (fun b => !b.isUsed)).length = 2 ∧
      FreeChain demoPool.allocate.2.m_blocks demoPool.allocate.2.m_head [1, 0] :=
  have w := getAvailableBlocks_counts_free demoPool.allocate.2
    (Reachable.allocate _ demoPool_reachable)
  ⟨Reachable.allocate _ demoPool_reachable, by decide, w.1.symm.trans (by decide),
    ⟨rfl, rfl, rfl⟩⟩

/-- C15: in the state the constructor returns and in every state reached from it
by calls of `allocate` and `deallocate`, returning or throwing, the chain that
starts at `m_head` ends at `nullptr` after finitely many descriptors, meets no
descriptor twice, and meets a descriptor exactly when its `isUsed` flag is
`false`, so every free descriptor is met exactly once; right after construction
all `blockCount` descriptors are free and each is met exactly once. -/
theorem free_list_invariant (p : MemoryPool) (hp : Reachable p) :
    (∃ free, FreeChain p.m_blocks p.m_head free ∧ free.Nodup ∧
      (∀ i, i ∈ free ↔ i < p.m_blockCount ∧ (p.block i).isUsed = false) ∧
      (∀ i, i < p.m_blockCount → (p.block i).isUsed = false → free.count i = 1)) ∧
    (∀ (h : Heap) (blockSize blockCount : Nat),
      (MemoryPool.ctor h blockSize blockCount).result = .ok p →
      p.m_blocks.length = blockCount ∧
      ∃ free, FreeChain p.m_blocks p.m_head free ∧ free.length = blockCount ∧
        ∀ i, i < blockCount → free.count i = 1) := by
  obtain ⟨pool, free, hinv⟩ := hp.inv
  refine ⟨⟨free, hinv.chain, hinv.nodup, hinv.mem_free, ?_⟩, ?_⟩
  · intro i hi hu
    exact List.count_eq_one_of_mem hinv.nodup ((hinv.mem_free i).2 ⟨hi, hu⟩)
  · intro h blockSize blockCount hq
    obtain ⟨_, hs, hc, pool', hnew, rfl⟩ := ctor_ok_inv h blockSize blockCount p hq
    have hcount : blockCount < SIZE_MOD := hinv.count_lt
    have hfresh := freshPool_inv h blockSize blockCount pool' hcount hs hc hnew
    refine ⟨hfresh.length_eq, _, hfresh.chain, by simp, ?_⟩
    intro i hi
    exact List.count_eq_one_of_mem hfresh.nodup (by simpa using hi)

/-- Witness for C15: the pool of `MemoryPool(8, 3)` right after construction; its
free list is `2, 1, 0`. -/
theorem free_list_invariant_witness :
    Reachable demoPool ∧ (MemoryPool.ctor Heap.demo 8 3).result = .ok demoPool ∧
      FreeChain demoPool.m_blocks demoPool.m_head [2, 1, 0] ∧
      ∃ free, FreeChain demoPool.m_blocks demoPool.m_head free ∧ free.length = 3 ∧
        ∀ i, i < 3 → free.count i = 1 :=
  have w := (free_list_invariant demoPool demoPool_reachable).2 Heap.demo 8 3 (by decide)
  ⟨demoPool_reachable, by decide, ⟨rfl, rfl, rfl, rfl⟩, w.2⟩

/-! ## Failed releases (C16) -/

/-- C16: whenever `deallocate` throws, in any state whatever, the object after
the call is identical to the object before it (head, and flag, link and address
of every descriptor); the exception is one of "Pointer not from this pool",
"Double free detected" and "Invalid pointer: out of pool range". -/
theorem deallocate_failure_atomic (p : MemoryPool) (ptr : Nat) (e : Exception)
    (h : (p.deallocate ptr).1 = .error e) :
    (p.deallocate ptr).2 = p ∧
      (e = .invalid_argument .notFromThisPool ∨ e = .invalid_argument .doubleFree ∨
        e = .invalid_argument .outOfPoolRange) := by
  unfold MemoryPool.deallocate at h ⊢
  by_cases hptr : ptr = 0
  · rw [if_pos hptr] at h
    cases h
  · rw [if_neg hptr] at h ⊢
    exact deallocateIn_error p ptr e p.m_pools h

/-- Witness for C16: releasing the free slot at `4096` of the fresh pool of
`MemoryPool(8, 3)` throws and changes nothing. -/
theorem deallocate_failure_atomic_witness :
    (demoPool.deallocate 4096).1 = .error (.invalid_argument .doubleFree) ∧
      (demoPool.deallocate 4096).2 = demoPool :=
  ⟨by decide,
    (deallocate_failure_atomic demoPool 4096 (.invalid_argument .doubleFree) (by decide)).1⟩

/-! ## Release of an outstanding address, buffer length, round trip (C17, C18, C19) -/

/-- Supporting lemma for C17: in a reachable state whose product
`m_blockSize * m_blockCount` does not wrap, the release of the address of a
descriptor `i` that is in use returns normally, maps the address to `i`, clears the
flag of `i` and links it in front of the former head, changes no other descriptor,
and the next `allocate` returns that address again. -/
theorem deallocate_outstanding (p : MemoryPool) (hp : Reachable p)
    (hfit : p.m_blockSize * p.m_blockCount < SIZE_MOD) (i : Nat)
    (hi : i < p.m_blockCount) (hused : (p.block i).isUsed = true) :
    (∀ pool ∈ p.m_pools, ((p.block i).data - pool) / p.m_blockSize = i) ∧
    (p.deallocate (p.block i).data).1 = .ok () ∧
    (p.deallocate (p.block i).data).2.block i
      = { data := (p.block i).data, isUsed := false, next := p.m_head } ∧
    (p.deallocate (p.block i).data).2.m_head = some i ∧
    (∀ j, j ≠ i → (p.deallocate (p.block i).data).2.block j = p.block j) ∧
    (p.deallocate (p.block i).data).2.allocate.1 = .ok (p.block i).data := by
  obtain ⟨pool, free, hinv⟩ := hp.inv
  obtain ⟨_, hlo, hhi, hidx⟩ := hinv.slot_address hfit i hi
  have hused' : (p.block (((p.block i).data - pool) / p.m_blockSize)).isUsed = true := by
    rw [hidx]; exact hused
  have hst := congrArg Prod.snd (deallocate_used p pool free hinv _ hlo hhi hused')
  have hres := congrArg Prod.fst (deallocate_used p pool free hinv _ hlo hhi hused')
  simp only at hst hres
  rw [hidx] at hst
  have hlen : i < p.m_blocks.length := by rw [hinv.length_eq]; exact hi
  generalize (p.deallocate (p.block i).data).2 = q at hst
  have hself : q.block i = { data := (p.block i).data, isUsed := false, next := p.m_head } := by
    rw [hst]; exact getD_set_self _ _ _ _ hlen
  have hhead : q.m_head = some i := by rw [hst]
  refine ⟨?_, hres, hself, hhead, ?_, ?_⟩
  · intro pool' hmem
    rw [hinv.pools_eq, List.mem_singleton] at hmem
    rw [hmem]; exact hidx
  · intro j hj
    rw [hst]; exact getD_set_ne _ _ _ _ _ (Ne.symm hj)
  · rw [allocate_some q i hhead, hself]

/-- C17 at the failing input `MemoryPool(2^63 + 16, 4)`: after four calls of
`allocate` the address `4128`, returned by the second call, is outstanding.  Its
release returns normally but is mapped to index `(4128 - 4096) / m_blockSize = 0`:
it frees descriptor 0, whose address is `4096`, leaves descriptor 2 (the one at
`4128`) in use, and the next `allocate` returns `4096`, not `4128`. -/
theorem wrapped_release_wrong_slot :
    (MemoryPool.ctor Heap.demo 9223372036854775824 4).result = .ok wrappedPool4 ∧
      wrappedPool4.allocate.2.allocate.1 = .ok 4128 ∧
      (wrappedPool4.allocate.2.allocate.2.allocate.2.allocate.2.block 2).data = 4128 ∧
      (wrappedPool4.allocate.2.allocate.2.allocate.2.allocate.2.deallocate 4128).1 = .ok () ∧
      (4128 - 4096) / wrappedPool4.m_blockSize = 0 ∧
      ((wrappedPool4.allocate.2.allocate.2.allocate.2.allocate.2.deallocate 4128).2.block
        0).isUsed = false ∧
      ((wrappedPool4.allocate.2.allocate.2.allocate.2.allocate.2.deallocate 4128).2.block
        2).isUsed = true ∧
      (wrappedPool4.allocate.2.allocate.2.allocate.2.allocate.2.deallocate
        4128).2.allocate.1 = .ok 4096 := by
  decide

/-- Supporting lemma for C18: when the exact product `alignedBlockSize × blockCount`
is below `2^64`, the constructor requests exactly that many bytes and every block
`[address, address + alignedBlockSize)` lies inside the buffer it obtained. -/
theorem buffer_length_exact (h : Heap) (blockSize blockCount : Nat) (p : MemoryPool)
    (hc : blockCount < SIZE_MOD)
    (hp : (MemoryPool.ctor h blockSize blockCount).result = .ok p)
    (hfit : alignUp blockSize * blockCount < SIZE_MOD) :
    (MemoryPool.ctor h blockSize blockCount).requests
      = [.blocks blockCount, .chars (alignUp blockSize * blockCount), .pools 1] ∧
    ∀ pool ∈ p.m_pools, ∀ i, i < blockCount →
      (p.block i).data = pool + i * alignUp blockSize ∧
      pool ≤ (p.block i).data ∧
      (p.block i).data + alignUp blockSize ≤ pool + alignUp blockSize * blockCount := by
  have hreq := ctor_ok_requests h blockSize blockCount p hp
  have hmul : sizeMul (alignUp blockSize) blockCount = alignUp blockSize * blockCount :=
    Nat.mod_eq_of_lt hfit
  rw [hmul] at hreq
  refine ⟨hreq, ?_⟩
  obtain ⟨_, hs, hc0, pool, hnew, rfl⟩ := ctor_ok_inv h blockSize blockCount p hp
  have hinv := freshPool_inv h blockSize blockCount pool hc hs hc0 hnew
  intro pool' hmem i hi
  have hmem' : pool' = pool := by simpa [freshPool] using hmem
  subst hmem'
  obtain ⟨haddr, hlo, _, _⟩ := hinv.slot_address hfit i hi
  have hstep : i * alignUp blockSize + alignUp blockSize ≤ alignUp blockSize * blockCount := by
    have := Nat.mul_le_mul_right (alignUp blockSize) (Nat.succ_le_of_lt hi)
    rw [Nat.succ_mul, Nat.mul_comm blockCount] at this
    exact this
  have haddr' : ((freshPool pool' (alignUp blockSize) blockCount).block i).data
      = pool' + i * alignUp blockSize := haddr
  refine ⟨haddr', ?_, ?_⟩
  · rw [haddr']; omega
  · rw [haddr']; omega

/-- C18 at the failing input `MemoryPool(2^63 + 16, 2)`: the constructor accepts
the arguments and requests `new char[32]`, while the exact product
`alignedBlockSize × blockCount` is `2^64 + 32`; slot 1 is given the address
`4096 + 2^63 + 16`, beyond the end `4096 + 32` of the buffer. -/
theorem wrapped_buffer_length :
    (MemoryPool.ctor Heap.demo 9223372036854775824 2).result = .ok wrappedPool ∧
      Request.chars 32 ∈ (MemoryPool.ctor Heap.demo 9223372036854775824 2).requests ∧
      sizeMul (alignUp 9223372036854775824) 2 = 32 ∧
      alignUp 9223372036854775824 * 2 = 18446744073709551648 ∧
      (wrappedPool.block 1).data = 9223372036854779920 ∧
      ¬ ((wrappedPool.block 1).data < 4096 + 32) := by
  decide

/-- Supporting lemma for C19: in a reachable state whose product
`m_blockSize * m_blockCount` does not wrap, `allocate` followed by the release of
the returned address returns normally and restores the object exactly. -/
theorem allocate_deallocate_roundtrip (p : MemoryPool) (hp : Reachable p)
    (hfit : p.m_blockSize * p.m_blockCount < SIZE_MOD) (a : Nat)
    (ha : p.allocate.1 = .ok a) :
    p.allocate.2.deallocate a = (.ok (), p) := by
  obtain ⟨pool, free, hinv⟩ := hp.inv
  obtain ⟨b, rest, hfree, hhead, hb, hbfree, hab⟩ := allocate_ok_inv p pool free hinv a ha
  subst hfree
  have hlen : b < p.m_blocks.length := by rw [hinv.length_eq]; exact hb
  have hinv' := allocate_inv p pool b rest hinv
  have hst := congrArg Prod.snd (allocate_some p b hhead)
  simp only at hst
  have hbs : p.allocate.2.m_blockSize = p.m_blockSize := by rw [hst]
  have hbc : p.allocate.2.m_blockCount = p.m_blockCount := by rw [hst]
  have hself := allocate_block_self p b hhead hlen
  obtain ⟨_, hlo, hhi, hidx⟩ := hinv.slot_address hfit b hb
  rw [← hab] at hlo hhi hidx
  have hhi' : a < pool + sizeMul p.allocate.2.m_blockSize p.allocate.2.m_blockCount := by
    rw [hbs, hbc]; exact hhi
  have hused : (p.allocate.2.block ((a - pool) / p.allocate.2.m_blockSize)).isUsed = true := by
    rw [hbs, hidx, hself]
  rw [deallocate_used p.allocate.2 pool rest hinv' a hlo hhi' hused, hbs, hidx, hself]
  congr 1
  rw [hst]
  simp only [List.set_set]
  have hblk : ({ data := (p.block b).data, isUsed := false, next := (p.block b).next }
      : MemoryBlock) = p.m_blocks.getD b default := by
    have e : p.block b = p.m_blocks.getD b default := rfl
    rw [← e]
    cases hpb : p.block b with
    | mk d u n =>
      rw [hpb] at hbfree
      simp only at hbfree
      subst hbfree
      rfl
  rw [hblk, set_getD_self _ _ _ hlen, ← hhead]

/-- C19 at the failing input `MemoryPool(2^63 + 16, 2)`: `allocate` returns
`4096 + 2^63 + 16`, the release of that address throws, and the object is left
with descriptor 1 in use and the head at descriptor 0, not in its state before
the `allocate`. -/
theorem wrapped_roundtrip_not_identity :
    (MemoryPool.ctor Heap.demo 9223372036854775824 2).result = .ok wrappedPool ∧
      wrappedPool.allocate.1 = .ok 9223372036854779920 ∧
      (wrappedPool.allocate.2.deallocate 9223372036854779920).2 ≠ wrappedPool ∧
      wrappedPool.m_head = some 1 ∧
      (wrappedPool.allocate.2.deallocate 9223372036854779920).2.m_head = some 0 ∧
      (wrappedPool.block 1).isUsed = false ∧
      ((wrappedPool.allocate.2.deallocate 9223372036854779920).2.block 1).isUsed = true := by
  decide

/-! ## The index test of `deallocate` (C20) -/

/-- C20: in every reachable state the index computed at line 69 from an address
inside `[base, base + alignedBlockSize × blockCount)` is below `blockCount`, so the
access `m_blocks[blockIndex]` is in bounds, and `deallocate` never throws
"Invalid pointer: out of pool range", whatever its argument. -/
theorem deallocate_index_in_range (p : MemoryPool) (hp : Reachable p) :
    (∀ pool ∈ p.m_pools, ∀ a, pool ≤ a → a < pool + p.m_blockSize * p.m_blockCount →
      (a - pool) / p.m_blockSize < p.m_blockCount ∧
      (a - pool) / p.m_blockSize < p.m_blocks.length) ∧
    (∀ ptr, (p.deallocate ptr).1 ≠ .error (.invalid_argument .outOfPoolRange)) := by
  obtain ⟨pool, free, hinv⟩ := hp.inv
  constructor
  · intro pool' _ a hlo hhi
    have hlt : (a - pool') / p.m_blockSize < p.m_blockCount := by
      rw [Nat.div_lt_iff_lt_mul hinv.size_pos, Nat.mul_comm]
      omega
    exact ⟨hlt, by rw [hinv.length_eq]; exact hlt⟩
  · intro ptr hcontra
    by_cases hptr : ptr = 0
    · subst hptr
      unfold MemoryPool.deallocate at hcontra
      rw [if_pos rfl] at hcontra
      cases hcontra
    · by_cases hin : pool ≤ ptr ∧ ptr < pool + sizeMul p.m_blockSize p.m_blockCount
      · cases hu : (p.block ((ptr - pool) / p.m_blockSize)).isUsed with
        | false =>
          rw [deallocate_free p pool free hinv ptr hin.1 hin.2 hu] at hcontra
          cases hcontra
        | true =>
          rw [deallocate_used p pool free hinv ptr hin.1 hin.2 hu] at hcontra
          cases hcontra
      · rw [deallocate_outside p pool free hinv ptr hptr (by omega)] at hcontra
        cases hcontra

/-- Witness for C20: in the fresh pool of `MemoryPool(8, 3)` the last byte `4143`
of the buffer is mapped to index 2. -/
theorem deallocate_index_in_range_witness :
    Reachable demoPool ∧ (4143 - 4096) / demoPool.m_blockSize < demoPool.m_blockCount ∧
      (demoPool.deallocate 4143).1 ≠ .error (.invalid_argument .outOfPoolRange) :=
  have w := deallocate_index_in_range demoPool demoPool_reachable
  ⟨demoPool_reachable, (w.1 4096 (by decide) 4143 (by decide) (by decide)).1, w.2 4143⟩
